import Mathlib

/-!
LinguaCards: a verification development

Shallow embedding of `src/main.cpp` (the `LinguaCards` flash-card drill) and
theorems about its persistence layer, due selection, answer transition,
statistics and review session.

Modelling conventions.

* A `std::string` is a `List Char`.  The predicates the stream library applies
  to characters (`isspace`, digit tests, the newline delimiter) only ever
  accept ASCII characters, so nothing depends on how text is encoded.
* `int` is a 32-bit and `time_t` a 64-bit two's-complement integer.  Values are
  carried as `Int`; arithmetic the program does on an `int` is wrapped with
  `wrapInt`.  Signed overflow is undefined behaviour in C++, so theorems that
  depend on an increment or a decrement state the absence of overflow as a
  hypothesis.
* The clock (`time(nullptr)`), the generator behind `std::random_shuffle`
  (`rand()`) and the terminal (`std::getline(std::cin, _)`) are oracles: the
  `n`-th call returns the `n`-th value of a stream, and the state counts calls.
* `flashcards.txt` is an `Option (List Char)`: `none` when the file is absent.
-/

namespace LinguaCards

/-! ## Data model -/

/-- The record `struct Flashcard` of the source. -/
structure Flashcard where
  front : List Char
  back : List Char
  correctCount : Int
  lastReview : Int
  deriving DecidableEq, Repr

/-- Smallest value of an `int`. -/
def INT_MIN : Int := -2147483648

/-- Largest value of an `int`. -/
def INT_MAX : Int := 2147483647

/-- Smallest value of a `time_t` (a 64-bit `long`). -/
def TIME_MIN : Int := -9223372036854775808

/-- Largest value of a `time_t` (a 64-bit `long`). -/
def TIME_MAX : Int := 9223372036854775807

/-- Reduction of a mathematical integer to the `int` it wraps to. -/
def wrapInt (x : Int) : Int := (x + 2147483648) % 4294967296 - 2147483648

/-! ## Input streams (`std::ifstream`) -/

/-- The part of an input file stream the loader observes: the characters not
yet extracted and the two state bits `eofbit` and `failbit`. -/
structure IStream where
  buf : List Char
  eofbit : Bool
  failbit : Bool
  deriving DecidableEq, Repr

/-- The stream predicate `good()`. -/
def IStream.good (s : IStream) : Bool := !s.eofbit && !s.failbit

/-- The conversion of a stream to `bool` used by the loop condition: `!fail()`. -/
def IStream.ok (s : IStream) : Bool := !s.failbit

/-- The classification `isspace` of the "C" locale. -/
def isspace (c : Char) : Bool :=
  c = ' ' || c = '\t' || c = '\n' || c = '\x0b' || c = '\x0c' || c = '\r'

/-- The decimal digits. -/
def isdigit (c : Char) : Bool := 48 ≤ c.toNat && c.toNat ≤ 57

/-- Value of a decimal digit. -/
def digitVal (c : Char) : Nat := c.toNat - 48

/-- Characters up to the first newline: the line, what follows the newline,
and whether the end of the buffer was met before a newline. -/
def getlineChars : List Char → List Char × List Char × Bool
  | [] => ([], [], true)
  | c :: cs =>
    if c = '\n' then ([], cs, false)
    else
      let r := getlineChars cs
      (c :: r.1, r.2.1, r.2.2)

/-- The call `std::getline(file, str)`: the new stream and the new value of `str`.
A stream that is not good only gets `failbit`; a good stream that is
already at its end gets `eofbit` and `failbit`; otherwise the line is extracted,
and `eofbit` is set when no newline ended it. -/
def getline (s : IStream) (str : List Char) : IStream × List Char :=
  if s.good then
    match s.buf with
    | [] => ({ buf := [], eofbit := true, failbit := true }, [])
    | c :: cs =>
      let r := getlineChars (c :: cs)
      ({ buf := r.2.1, eofbit := r.2.2, failbit := false }, r.1)
  else ({ s with failbit := true }, str)

/-- The digit-accumulation loop of `num_get`: consumes the leading digits. -/
def accumDigits : List Char → Nat → Nat × List Char
  | [], acc => (acc, [])
  | c :: cs, acc =>
    if isdigit c then accumDigits cs (acc * 10 + digitVal c) else (acc, c :: cs)

/-- An optional sign in front of a number: whether it is `-`, and the rest. -/
def takeSign : List Char → Bool × List Char
  | [] => (false, [])
  | c :: cs => if c = '-' then (true, cs) else if c = '+' then (false, cs) else (false, c :: cs)

/-- The formatted extraction `file >> x` for an integer type with range
`lo .. hi`.  The sentry refuses a stream that is not good and skips leading
whitespace (meeting the end there sets both bits); then an optional sign and
the digits are consumed.  No digit, or a value outside the range, sets
`failbit`; meeting the end of the buffer sets `eofbit`. -/
def extractInt (lo hi : Int) (s : IStream) : IStream × Option Int :=
  if s.good then
    match s.buf.dropWhile isspace with
    | [] => ({ buf := [], eofbit := true, failbit := true }, none)
    | c :: cs =>
      let sg := takeSign (c :: cs)
      let r := accumDigits sg.2 0
      let x : Int := if sg.1 then -(r.1 : Int) else (r.1 : Int)
      if sg.2.length = r.2.length then
        ({ buf := r.2, eofbit := r.2.isEmpty, failbit := true }, none)
      else if lo ≤ x ∧ x ≤ hi then
        ({ buf := r.2, eofbit := r.2.isEmpty, failbit := false }, some x)
      else ({ buf := r.2, eofbit := r.2.isEmpty, failbit := true }, none)
  else ({ s with failbit := true }, none)

/-- The call `file.ignore()`: drops one character of a good stream, sets
`eofbit` at the end of the buffer, and sets `failbit` on a stream that is
not good. -/
def ignore (s : IStream) : IStream :=
  if s.good then
    match s.buf with
    | [] => { s with eofbit := true }
    | _ :: cs => { s with buf := cs }
  else { s with failbit := true }

/-! ## Output (`operator<<` on integers) -/

/-- The character of a decimal digit. -/
def digitChar (d : Nat) : Char := Char.ofNat (48 + d)

/-- Decimal digits of a number, most significant first, pushed in front of
`acc`; the first argument bounds the number of digits. -/
def showNatAux : Nat → Nat → List Char → List Char
  | 0, _, acc => acc
  | fuel + 1, n, acc =>
    if n < 10 then digitChar n :: acc
    else showNatAux fuel (n / 10) (digitChar (n % 10) :: acc)

/-- Decimal representation of a natural number. -/
def showNat (n : Nat) : List Char := showNatAux (n + 1) n []

/-- Text that `file << x` writes for an integer `x`. -/
def showInt (x : Int) : List Char :=
  if x < 0 then '-' :: showNat x.natAbs else showNat x.natAbs

/-! ## Persistence: `loadCards` and `saveCards` -/

/-- Text that one iteration of the loop of `saveCards` writes. -/
def saveCard (c : Flashcard) : List Char :=
  c.front ++ '\n' :: (c.back ++ '\n' :: (showInt c.correctCount ++ ' ' :: (showInt c.lastReview ++ ['\n'])))

/-- Content of the file after `saveCards`: the records of all cards in order. -/
def saveCards : List Flashcard → List Char
  | [] => []
  | c :: cs => saveCard c ++ saveCards cs

/-- The loop of `loadCards`.  Each iteration evaluates
`getline(file, front) && getline(file, back) && file >> count >> last`; when it
holds, `file.ignore()` runs and the card is pushed.  The first argument bounds
the number of iterations; `none` means the bound was reached. -/
def loadLoop : Nat → IStream → List Char → List Char → List Flashcard → Option (List Flashcard)
  | 0, _, _, _, _ => none
  | fuel + 1, s, front, back, cards =>
    let g1 := getline s front
    if g1.1.ok then
      let g2 := getline g1.1 back
      if g2.1.ok then
        let e1 := extractInt INT_MIN INT_MAX g2.1
        let e2 := extractInt TIME_MIN TIME_MAX e1.1
        match e2.1.ok, e1.2, e2.2 with
        | true, some count, some last =>
          loadLoop fuel (ignore e2.1) g1.2 g2.2
            (cards ++ [{ front := g1.2, back := g2.2, correctCount := count, lastReview := last }])
        | _, _, _ => some cards
      else some cards
    else some cards

/-- The method `loadCards`: an absent file leaves `cards` alone; otherwise the
loop runs on the content.  An iteration that pushes a card consumes at least
one character, so the bound is never reached. -/
def loadCards (file : Option (List Char)) (cards : List Flashcard) : Option (List Flashcard) :=
  match file with
  | none => some cards
  | some text => loadLoop (text.length + 1) { buf := text, eofbit := false, failbit := false } [] [] cards

/-! ## Collaborators and program state -/

/-- The external collaborators of a run: the `n`-th result of `time(nullptr)`,
the `n`-th result of `rand()`, and the `n`-th line delivered by
`std::getline(std::cin, _)` (the empty line once the input has ended). -/
structure Env where
  time : Nat → Int
  rand : Nat → Nat
  cin : Nat → List Char

/-- State of a run: the member `cards`, the content of `flashcards.txt`, the
text written to `std::cout`, and how often each collaborator was called. -/
structure State where
  cards : List Flashcard
  file : Option (List Char)
  cout : List Char
  timeCalls : Nat
  randCalls : Nat
  linesRead : Nat

/-- The constructor `LinguaCards()`: `cards` starts empty and `loadCards` runs. -/
def construct (file : Option (List Char)) : Option State :=
  (loadCards file []).map fun cs =>
    { cards := cs, file := file, cout := [], timeCalls := 0, randCalls := 0, linesRead := 0 }

/-- The method `addCard`: push the new card with count `0` and the current
time, then `saveCards`. -/
def addCard (env : Env) (front back : List Char) (st : State) : State :=
  let cards := st.cards ++
    [{ front := front, back := back, correctCount := 0, lastReview := env.time st.timeCalls }]
  { st with cards := cards, timeCalls := st.timeCalls + 1, file := some (saveCards cards) }

/-! ## Due selection -/

/-- The value `difftime(t1, t0)` as far as the program observes it.  The
library returns the exact difference rounded to a `double`; rounding is
monotone and leaves `86400` fixed, so comparing the rounded value with `86400`
is comparing the exact difference with it. -/
def difftime (t1 t0 : Int) : Int := t1 - t0

/-- The condition of the selection loop of `reviewCards`. -/
def isDue (now : Int) (card : Flashcard) : Bool :=
  decide (card.correctCount < 3) || decide (difftime now card.lastReview ≥ 86400)

/-- The selection loop of `reviewCards`: walks `cards` and pushes every card
that meets the condition onto `dueCards`. -/
def selectDue (now : Int) : List Flashcard → List Flashcard → List Flashcard
  | [], dueCards => dueCards
  | card :: rest, dueCards =>
    if isDue now card then selectDue now rest (dueCards ++ [card])
    else selectDue now rest dueCards

/-! ## Answer transition -/

/-- Body of the update loop after a correct answer, for one matching card:
`c.correctCount++; c.lastReview = time(nullptr)`. -/
def markCorrect (t : Int) (c : Flashcard) : Flashcard :=
  { c with correctCount := wrapInt (c.correctCount + 1), lastReview := t }

/-- Body of the update loop after an incorrect answer, for one matching card:
`c.correctCount = std::max(0, c.correctCount - 1); c.lastReview = time(nullptr)`. -/
def markIncorrect (t : Int) (c : Flashcard) : Flashcard :=
  { c with correctCount := max 0 (wrapInt (c.correctCount - 1)), lastReview := t }

/-- The transition applied to one matching card. -/
def mark (correct : Bool) (t : Int) (c : Flashcard) : Flashcard :=
  if correct then markCorrect t c else markIncorrect t c

/-- The update loops `for (auto& c : cards) if (c.front == card.front) ...`:
every card whose front equals `front` is marked, and each marked card reads
the clock once.  Returns the cards and the number of clock calls so far. -/
def applyResult (time : Nat → Int) (front : List Char) (correct : Bool) :
    List Flashcard → Nat → List Flashcard × Nat
  | [], k => ([], k)
  | c :: cs, k =>
    if c.front = front then
      let r := applyResult time front correct cs (k + 1)
      (mark correct (time k) c :: r.1, r.2)
    else
      let r := applyResult time front correct cs k
      (c :: r.1, r.2)

/-! ## Shuffle -/

/-- Exchange of the elements at positions `i` and `j` (`std::iter_swap`). -/
def swapAt {α : Type} (l : List α) (i j : Nat) : List α :=
  match l[i]?, l[j]? with
  | some a, some b => (l.set i b).set j a
  | _, _ => l

/-- The loop of `std::random_shuffle(first, last)`: for `i` from `1` up to the
last position, `j = rand() % (i + 1)` and the elements at `i` and `j` are
exchanged when `i != j`.  The first argument is the number of positions left. -/
def shuffleLoop {α : Type} (rand : Nat → Nat) : Nat → Nat → Nat → List α → List α × Nat
  | 0, _, k, l => (l, k)
  | n + 1, i, k, l =>
    let j := rand k % (i + 1)
    shuffleLoop rand n (i + 1) (k + 1) (if i ≠ j then swapAt l i j else l)

/-- The call `std::random_shuffle(dueCards.begin(), dueCards.end())`: the
shuffled list and the number of `rand()` calls so far. -/
def random_shuffle {α : Type} (rand : Nat → Nat) (k : Nat) (l : List α) : List α × Nat :=
  shuffleLoop rand (l.length - 1) 1 k l

/-! ## Review session -/

/-- Appends text to `std::cout`. -/
def State.print (st : State) (text : List Char) : State :=
  { st with cout := st.cout ++ text }

/-- The presentation loop of `reviewCards` over the shuffled `dueCards`: show
the front, read one line, compare it with the back, and update the live
`cards` by front. -/
def presentLoop (env : Env) : List Flashcard → State → State
  | [], st => st
  | card :: rest, st =>
    let st1 := st.print ("Front: ".toList ++ card.front ++ "\nEnter answer: ".toList)
    let answer := env.cin st1.linesRead
    let st2 := { st1 with linesRead := st1.linesRead + 1 }
    if answer = card.back then
      let st3 := st2.print "Correct!\n".toList
      let r := applyResult env.time card.front true st3.cards st3.timeCalls
      presentLoop env rest { st3 with cards := r.1, timeCalls := r.2 }
    else
      let st3 := st2.print ("Incorrect. Answer: ".toList ++ card.back ++ "\n".toList)
      let r := applyResult env.time card.front false st3.cards st3.timeCalls
      presentLoop env rest { st3 with cards := r.1, timeCalls := r.2 }

/-- The method `reviewCards`. -/
def reviewCards (env : Env) (st : State) : State :=
  if st.cards.isEmpty then st.print "No flashcards available. Add some first!\n".toList
  else
    let now := env.time st.timeCalls
    let st1 := { st with timeCalls := st.timeCalls + 1 }
    let dueCards := selectDue now st1.cards []
    if dueCards.isEmpty then st1.print "No cards due for review!\n".toList
    else
      let sh := random_shuffle env.rand st1.randCalls dueCards
      let st2 := presentLoop env sh.1 { st1 with randCalls := sh.2 }
      { st2 with file := some (saveCards st2.cards) }

/-! ## Statistics -/

/-- Integer division of C++ on `int`: undefined (`none`) for a zero divisor,
otherwise the quotient truncated toward zero. -/
def intDiv (a b : Int) : Option Int :=
  if b = 0 then none else some (wrapInt (Int.tdiv a b))

/-- The counting loop of `showStats`: `if (card.correctCount >= 3) mastered++`. -/
def countMastered : List Flashcard → Int → Int
  | [], mastered => mastered
  | card :: rest, mastered =>
    if card.correctCount ≥ 3 then countMastered rest (wrapInt (mastered + 1))
    else countMastered rest mastered

/-- What `showStats` reports: the guarded message, or the three numbers. -/
inductive Stats where
  | noCards
  | report (total mastered masteryPercent : Int)
  deriving DecidableEq, Repr

/-- The method `showStats`: `none` when the division `mastered * 100 / total`
would be evaluated with `total = 0`. -/
def showStats (cards : List Flashcard) : Option Stats :=
  if cards.isEmpty then some Stats.noCards
  else
    let total := wrapInt (cards.length : Int)
    let mastered := countMastered cards 0
    (intDiv (wrapInt (mastered * 100)) total).map fun pct => Stats.report total mastered pct

/-! ## Sequences of results -/

/-- The update loops run for a sequence of results `(front, correct)`, one
after the other on the live `cards`: what the presentation loop does to
`cards` and to the clock, without the terminal. -/
def applyResults (time : Nat → Int) :
    List (List Char × Bool) → List Flashcard → Nat → List Flashcard × Nat
  | [], cards, k => (cards, k)
  | r :: rs, cards, k =>
    let s := applyResult time r.1 r.2 cards k
    applyResults time rs s.1 s.2

/-! ## Sequences of answers -/

/-- A card after a sequence of answers, each given by its outcome and the
clock reading of its update, applied in order by the transition `mark`. -/
def answerAll (answers : List (Bool × Int)) (c : Flashcard) : Flashcard :=
  answers.foldl (fun card a => mark a.1 a.2 card) c

/-! ## Truncated records -/

/-- The text `saveCards` writes for a card up to, and not including, the first
digit of `lastReview`: front line, back line, the count, the blank and the sign
of a negative `lastReview`. -/
def recordHead (c : Flashcard) : List Char :=
  c.front ++ '\n' :: (c.back ++ '\n' :: (showInt c.correctCount ++
    ' ' :: (if c.lastReview < 0 then ['-'] else [])))

/-! ## Sessions as sequences of results -/

/-- The results `(front, correct)` of presenting `dueCards` in order when the
first answer is the `n`-th line of the terminal: the answer to a card is
correct when the line read for it equals its back. -/
def sessionResults (cin : Nat → List Char) : List Flashcard → Nat → List (List Char × Bool)
  | [], _ => []
  | card :: rest, n =>
    (card.front, decide (cin n = card.back)) :: sessionResults cin rest (n + 1)

/-! ## Runs of the store -/

/-- What can happen to the store after construction: `addCard`, one answer
transition of a review session, or a whole call of `reviewCards`. -/
inductive Op where
  | add (front back : List Char)
  | answer (front : List Char) (correct : Bool)
  | review

/-- One operation on the state. -/
def step (env : Env) : Op → State → State
  | Op.add front back, st => addCard env front back st
  | Op.answer front correct, st =>
    let r := applyResult env.time front correct st.cards st.timeCalls
    { st with cards := r.1, timeCalls := r.2 }
  | Op.review, st => reviewCards env st

/-- A sequence of operations, applied from left to right. -/
def run (env : Env) (ops : List Op) (st : State) : State :=
  ops.foldl (fun s op => step env op s) st

/-- A bound on the number of transitions one card can receive during a run
that starts with `n` cards: one per answer, and at most one per card of the
store in a call of `reviewCards`. -/
def opsCost : Nat → List Op → Nat
  | _, [] => 0
  | n, Op.add _ _ :: ops => opsCost (n + 1) ops
  | n, Op.answer _ _ :: ops => 1 + opsCost n ops
  | n, Op.review :: ops => n + opsCost n ops

/-! ## Lines that do not hold two integers -/

/-- A line starts with a token that is not an integer: it has a first
non-blank character and, after one optional sign, no digit follows on the
line. -/
def startsNonInteger (l : List Char) : Bool :=
  match l.dropWhile isspace with
  | [] => false
  | c :: cs =>
    match (takeSign (c :: cs)).2 with
    | [] => true
    | d :: _ => !isdigit d

/-- The text of an integer: an optional sign followed by one or more digits. -/
def isIntLiteral (l : List Char) : Bool :=
  match l with
  | [] => false
  | c :: cs =>
    match (takeSign (c :: cs)).2 with
    | [] => false
    | d :: ds => (d :: ds).all isdigit

/-- An integer at the start of `text` the way `>>` reads one: whitespace
(blanks and line ends) is skipped, one optional sign is taken, and at least
one digit must follow; the result is the value and the text after the last
digit. -/
def readInt (text : List Char) : Option (Int × List Char) :=
  match text.dropWhile isspace with
  | [] => none
  | c :: cs =>
    let sg := takeSign (c :: cs)
    let r := accumDigits sg.2 0
    if sg.2.length = r.2.length then none
    else some (if sg.1 then -(r.1 : Int) else (r.1 : Int), r.2)

/-- Whether `text` begins with two integers for `file >> count >> last`: an
integer within `int`, then text that is not at its end and holds an integer
within `time_t`. -/
def beginsWithTwoInts (text : List Char) : Bool :=
  match readInt text with
  | none => false
  | some (x, rest) =>
    decide (INT_MIN ≤ x ∧ x ≤ INT_MAX) &&
      match readInt rest with
      | none => false
      | some (y, _) => decide (TIME_MIN ≤ y ∧ y ≤ TIME_MAX)

/-! ## What a session shows -/

/-- What one iteration of the presentation loop writes for `card` when the
line read for it is `answer`: the prompt with the front, then `Correct!` or
the line with the stored back. -/
def cardText (card : Flashcard) (answer : List Char) : List Char :=
  "Front: ".toList ++ card.front ++ "\nEnter answer: ".toList ++
    (if answer = card.back then "Correct!\n".toList
     else "Incorrect. Answer: ".toList ++ card.back ++ "\n".toList)

/-- What the presentation loop writes for the cards of `dueCards`, in order,
when the first answer is the `n`-th line of the terminal. -/
def transcript (cin : Nat → List Char) : List Flashcard → Nat → List Char
  | [], _ => []
  | card :: rest, n => cardText card (cin n) ++ transcript cin rest (n + 1)

/-! ## Well-formed records -/

/-- A record is well formed when front and back are single lines and the two
numbers are values of their C++ types (`int` and `time_t`). -/
def WellFormed (c : Flashcard) : Prop :=
  '\n' ∉ c.front ∧ '\n' ∉ c.back ∧
    (INT_MIN ≤ c.correctCount ∧ c.correctCount ≤ INT_MAX) ∧
    (TIME_MIN ≤ c.lastReview ∧ c.lastReview ≤ TIME_MAX)

instance (c : Flashcard) : Decidable (WellFormed c) := by
  unfold WellFormed; infer_instance

/-! ## Lemmas on streams -/

theorem getlineChars_line (l rest : List Char) (h : '\n' ∉ l) :
    getlineChars (l ++ '\n' :: rest) = (l, rest, false) := by
  induction l with
  | nil => simp [getlineChars]
  | cons a l ih =>
    have ha : a ≠ '\n' := fun e => h (by simp [e])
    have hl : '\n' ∉ l := fun e => h (by simp [e])
    simp [getlineChars, ha, ih hl]

theorem getline_line (l rest str : List Char) (h : '\n' ∉ l) :
    getline { buf := l ++ '\n' :: rest, eofbit := false, failbit := false } str =
      ({ buf := rest, eofbit := false, failbit := false }, l) := by
  have hg := getlineChars_line l rest h
  unfold getline
  simp only [IStream.good, Bool.not_false, Bool.and_self, if_true]
  cases hb : l ++ '\n' :: rest with
  | nil => simp at hb
  | cons c cs =>
    rw [hb] at hg
    simp only [hg]

theorem digitChar_toNat (d : Nat) (h : d < 10) : (digitChar d).toNat = 48 + d := by
  interval_cases d <;> rfl

theorem isdigit_digitChar (d : Nat) (h : d < 10) : isdigit (digitChar d) = true := by
  simp [isdigit, digitChar_toNat d h]; omega

theorem digitVal_digitChar (d : Nat) (h : d < 10) : digitVal (digitChar d) = d := by
  simp [digitVal, digitChar_toNat d h]

theorem showNatAux_acc (fuel n : Nat) (acc : List Char) :
    showNatAux fuel n acc = showNatAux fuel n [] ++ acc := by
  induction fuel generalizing n acc with
  | zero => simp [showNatAux]
  | succ f ih =>
    unfold showNatAux
    split
    · simp
    · rw [ih (n / 10) (digitChar (n % 10) :: acc), ih (n / 10) [digitChar (n % 10)]]
      simp

theorem accumDigits_showNatAux (fuel n : Nat) (h : n < fuel) (rest : List Char) :
    accumDigits (showNatAux fuel n [] ++ rest) 0 = accumDigits rest n := by
  induction fuel generalizing n rest with
  | zero => omega
  | succ f ih =>
    unfold showNatAux
    split
    · rename_i h10
      simp [accumDigits, isdigit_digitChar n h10, digitVal_digitChar n h10]
    · rename_i h10
      rw [showNatAux_acc, List.append_assoc, ih (n / 10) (by omega)]
      have hm : n % 10 < 10 := Nat.mod_lt _ (by decide)
      simp only [List.singleton_append, accumDigits, isdigit_digitChar _ hm, if_true,
        digitVal_digitChar _ hm]
      congr 1
      omega

theorem showNatAux_head (fuel n : Nat) (h : n < fuel) (acc : List Char) :
    ∃ d tl, d < 10 ∧ showNatAux fuel n acc = digitChar d :: tl := by
  induction fuel generalizing n acc with
  | zero => omega
  | succ f ih =>
    unfold showNatAux
    split
    · rename_i h10
      exact ⟨n, acc, h10, rfl⟩
    · exact ih (n / 10) (by omega) _

theorem showNat_head (n : Nat) : ∃ d tl, d < 10 ∧ showNat n = digitChar d :: tl :=
  showNatAux_head (n + 1) n (by omega) []

theorem accumDigits_stop (c : Char) (cs : List Char) (n : Nat) (h : isdigit c = false) :
    accumDigits (c :: cs) n = (n, c :: cs) := by
  simp [accumDigits, h]

theorem accumDigits_showNat (n : Nat) (c : Char) (cs : List Char) (h : isdigit c = false) :
    accumDigits (showNat n ++ c :: cs) 0 = (n, c :: cs) := by
  rw [showNat, accumDigits_showNatAux (n + 1) n (by omega), accumDigits_stop c cs n h]

theorem digitChar_facts (d : Nat) (h : d < 10) :
    isspace (digitChar d) = false ∧ digitChar d ≠ '-' ∧ digitChar d ≠ '+' := by
  interval_cases d <;> decide

theorem extractInt_showInt (lo hi x : Int) (hx : lo ≤ x ∧ x ≤ hi) (c : Char) (cs : List Char)
    (hc : isdigit c = false) :
    extractInt lo hi { buf := showInt x ++ c :: cs, eofbit := false, failbit := false } =
      ({ buf := c :: cs, eofbit := false, failbit := false }, some x) := by
  obtain ⟨d, tl, hd, hshow⟩ := showNat_head x.natAbs
  obtain ⟨hsp, hminus, hplus⟩ := digitChar_facts d hd
  have hacc := accumDigits_showNat x.natAbs c cs hc
  have hlen : (showNat x.natAbs ++ c :: cs).length ≠ (c :: cs).length := by
    rw [hshow]; simp; omega
  unfold extractInt showInt
  by_cases hneg : x < 0
  · have hval : -((x.natAbs : Nat) : Int) = x := by omega
    simp only [IStream.good, Bool.not_false, Bool.and_self, if_true, hneg, List.cons_append]
    rw [List.dropWhile_cons_of_neg (by decide)]
    simp only [takeSign, if_true, hacc, hlen, if_false, hval, hx, and_self, List.isEmpty_cons]
  · have hval : ((x.natAbs : Nat) : Int) = x := by omega
    simp only [IStream.good, Bool.not_false, Bool.and_self, if_true, hneg, if_false]
    rw [hshow] at hacc hlen ⊢
    simp only [List.cons_append] at hacc hlen ⊢
    rw [List.dropWhile_cons_of_neg (by simp [hsp])]
    simp only [takeSign, hminus, hplus, if_false, hacc, hlen, hval, hx, and_self, if_true,
      List.isEmpty_cons, Bool.false_eq_true]

theorem loadLoop_saveCard (fuel : Nat) (c : Flashcard) (hc : WellFormed c)
    (tail front back : List Char) (cards : List Flashcard) :
    loadLoop (fuel + 1) { buf := saveCard c ++ tail, eofbit := false, failbit := false }
        front back cards =
      loadLoop fuel { buf := tail, eofbit := false, failbit := false } c.front c.back
        (cards ++ [c]) := by
  obtain ⟨hf, hb, hcount, hlast⟩ := hc
  have h1 := getline_line c.front
    (c.back ++ '\n' :: (showInt c.correctCount ++ ' ' :: (showInt c.lastReview ++ '\n' :: tail)))
    front hf
  have h2 := getline_line c.back
    (showInt c.correctCount ++ ' ' :: (showInt c.lastReview ++ '\n' :: tail)) back hb
  have h3 := extractInt_showInt INT_MIN INT_MAX c.correctCount hcount ' '
    (showInt c.lastReview ++ '\n' :: tail) (by decide)
  have h4 : extractInt TIME_MIN TIME_MAX
      { buf := ' ' :: (showInt c.lastReview ++ '\n' :: tail), eofbit := false, failbit := false } =
      ({ buf := '\n' :: tail, eofbit := false, failbit := false }, some c.lastReview) := by
    have h := extractInt_showInt TIME_MIN TIME_MAX c.lastReview hlast '\n' tail (by decide)
    unfold extractInt at h ⊢
    simp only [IStream.good, Bool.not_false, Bool.and_self, if_true] at h ⊢
    rw [List.dropWhile_cons_of_pos (by decide)]
    exact h
  have hbuf : saveCard c ++ tail = c.front ++ '\n' ::
      (c.back ++ '\n' :: (showInt c.correctCount ++ ' ' :: (showInt c.lastReview ++ '\n' :: tail))) := by
    simp [saveCard]
  rw [hbuf]
  simp only [loadLoop, h1, h2, h3, h4, IStream.ok, Bool.not_false, if_true, ignore, IStream.good,
    Bool.and_self]

theorem loadLoop_saveCards (cs : List Flashcard) (hcs : ∀ c ∈ cs, WellFormed c) (k : Nat)
    (tail front back : List Char) (cards : List Flashcard) :
    ∃ front1 back1,
      loadLoop (k + cs.length) { buf := saveCards cs ++ tail, eofbit := false, failbit := false }
          front back cards =
        loadLoop k { buf := tail, eofbit := false, failbit := false } front1 back1
          (cards ++ cs) := by
  induction cs generalizing front back cards with
  | nil => exact ⟨front, back, by simp [saveCards]⟩
  | cons c cs ih =>
    have hc : WellFormed c := hcs c (by simp)
    obtain ⟨f1, b1, h⟩ := ih (fun x hx => hcs x (by simp [hx])) c.front c.back (cards ++ [c])
    refine ⟨f1, b1, ?_⟩
    have hlen : k + (c :: cs).length = (k + cs.length) + 1 := by simp only [List.length_cons]; omega
    rw [hlen]
    have hbuf : saveCards (c :: cs) ++ tail = saveCard c ++ (saveCards cs ++ tail) := by
      simp [saveCards]
    rw [hbuf, loadLoop_saveCard _ c hc, h]
    simp

theorem saveCard_length_pos (c : Flashcard) : 0 < (saveCard c).length := by
  simp [saveCard]

theorem length_le_saveCards (cs : List Flashcard) : cs.length ≤ (saveCards cs).length := by
  induction cs with
  | nil => simp
  | cons c cs ih =>
    have := saveCard_length_pos c
    simp [saveCards]; omega

theorem loadLoop_nil (k : Nat) (front back : List Char) (cards : List Flashcard) :
    loadLoop (k + 1) { buf := [], eofbit := false, failbit := false } front back cards =
      some cards := by
  simp [loadLoop, getline, IStream.good, IStream.ok]

/-! ## The loop of `loadCards` always ends -/

theorem getlineChars_length (c : Char) (cs : List Char) :
    (getlineChars (c :: cs)).2.1.length < (c :: cs).length := by
  induction cs generalizing c with
  | nil =>
    by_cases h : c = '\n' <;> simp [getlineChars, h]
  | cons a as ih =>
    by_cases h : c = '\n'
    · simp [getlineChars, h]
    · have := ih a
      rw [getlineChars, if_neg h]
      simp only [List.length_cons] at this ⊢
      omega

theorem getline_buf_le (s : IStream) (str : List Char) :
    (getline s str).1.buf.length ≤ s.buf.length := by
  unfold getline
  split
  · split
    · simp
    · rename_i c cs hb
      have := getlineChars_length c cs
      simp only [hb]
      omega
  · exact Nat.le_refl _

theorem getline_buf_lt (s : IStream) (str : List Char) (h : (getline s str).1.ok = true) :
    (getline s str).1.buf.length < s.buf.length := by
  unfold getline at h ⊢
  by_cases hg : s.good = true
  · rw [if_pos hg] at h ⊢
    cases hb : s.buf with
    | nil =>
      rw [hb] at h
      simp [IStream.ok] at h
    | cons c cs =>
      have := getlineChars_length c cs
      simp only
      omega
  · rw [if_neg hg] at h
    simp [IStream.ok] at h

theorem accumDigits_length (l : List Char) (a : Nat) : (accumDigits l a).2.length ≤ l.length := by
  induction l generalizing a with
  | nil => simp [accumDigits]
  | cons c cs ih =>
    unfold accumDigits
    split
    · have := ih (a * 10 + digitVal c)
      simp only [List.length_cons]
      omega
    · exact Nat.le_refl _

theorem takeSign_length (l : List Char) : (takeSign l).2.length ≤ l.length := by
  cases l with
  | nil => simp [takeSign]
  | cons c cs =>
    simp only [takeSign]
    split_ifs <;> simp

theorem dropWhile_length (q : Char → Bool) (l : List Char) :
    (l.dropWhile q).length ≤ l.length :=
  (List.dropWhile_sublist q).length_le

theorem extractInt_buf_le (lo hi : Int) (s : IStream) :
    (extractInt lo hi s).1.buf.length ≤ s.buf.length := by
  unfold extractInt
  split
  · have hd := dropWhile_length isspace s.buf
    split
    · simp
    · rename_i c cs hb
      rw [hb] at hd
      have h1 := takeSign_length (c :: cs)
      have h2 := accumDigits_length (takeSign (c :: cs)).2 0
      simp only
      split_ifs <;> (simp only; omega)
  · exact Nat.le_refl _

theorem ignore_buf_le (s : IStream) : (ignore s).buf.length ≤ s.buf.length := by
  unfold ignore
  split
  · split
    · rename_i hb
      simp [hb]
    · rename_i c cs hb
      simp [hb]
  · exact Nat.le_refl _

theorem loadLoop_total (fuel : Nat) (s : IStream) (front back : List Char)
    (cards : List Flashcard) (h : s.buf.length < fuel) :
    ∃ r, loadLoop fuel s front back cards = some r := by
  induction fuel generalizing s front back cards with
  | zero => omega
  | succ n ih =>
    unfold loadLoop
    simp only
    split
    · rename_i h1
      split
      · have hlt := getline_buf_lt s front h1
        have h2 := getline_buf_le (getline s front).1 back
        have h3 := extractInt_buf_le INT_MIN INT_MAX (getline (getline s front).1 back).1
        have h4 := extractInt_buf_le TIME_MIN TIME_MAX
          (extractInt INT_MIN INT_MAX (getline (getline s front).1 back).1).1
        have h5 := ignore_buf_le (extractInt TIME_MIN TIME_MAX
          (extractInt INT_MIN INT_MAX (getline (getline s front).1 back).1).1).1
        split
        · exact ih _ _ _ _ (by omega)
        · exact ⟨cards, rfl⟩
      · exact ⟨cards, rfl⟩
    · exact ⟨cards, rfl⟩

/-- The method `loadCards` returns on every file: the bound on the number of
iterations is never what ends the loop. -/
theorem loadCards_total (file : Option (List Char)) (cards : List Flashcard) :
    ∃ r, loadCards file cards = some r := by
  cases file with
  | none => exact ⟨cards, rfl⟩
  | some text => exact loadLoop_total _ _ _ _ _ (by simp)

/-! ## Persistence theorems -/

/-- C1. Round trip: for every Card Set whose records are well formed (fronts and
backs without a newline, numbers within `int` and `time_t`), loading the text
that `saveCards` writes returns exactly the same sequence of cards. -/
theorem load_save_roundtrip (cs : List Flashcard) (hcs : ∀ c ∈ cs, WellFormed c) :
    loadCards (some (saveCards cs)) [] = some cs := by
  obtain ⟨f1, b1, h⟩ := loadLoop_saveCards cs hcs ((saveCards cs).length + 1 - cs.length) [] [] [] []
  have hle := length_le_saveCards cs
  have hfuel : (saveCards cs).length + 1 - cs.length + cs.length = (saveCards cs).length + 1 := by
    omega
  have hk : (saveCards cs).length + 1 - cs.length = ((saveCards cs).length - cs.length) + 1 := by
    omega
  rw [hfuel, List.append_nil] at h
  simp only [loadCards, h, hk, loadLoop_nil, List.nil_append]

/-- Witness for C1: two cards, one with an empty back and spaces around its
front, one with an empty front, a negative count and a negative time. -/
theorem load_save_roundtrip_witness :
    (∀ c ∈ [({ front := [' ', 'a', ' '], back := [], correctCount := 2, lastReview := 1700000000 } : Flashcard),
        { front := [], back := ['x', ' '], correctCount := -1, lastReview := -5 }], WellFormed c) ∧
    loadCards (some (saveCards
      [({ front := [' ', 'a', ' '], back := [], correctCount := 2, lastReview := 1700000000 } : Flashcard),
        { front := [], back := ['x', ' '], correctCount := -1, lastReview := -5 }])) [] =
      some [({ front := [' ', 'a', ' '], back := [], correctCount := 2, lastReview := 1700000000 } : Flashcard),
        { front := [], back := ['x', ' '], correctCount := -1, lastReview := -5 }] :=
  ⟨by decide, load_save_roundtrip _ (by decide)⟩

/-! ## Due selection theorems -/

theorem selectDue_acc (now : Int) (cards dueCards : List Flashcard) :
    selectDue now cards dueCards = dueCards ++ cards.filter (isDue now) := by
  induction cards generalizing dueCards with
  | nil => simp [selectDue]
  | cons c cs ih =>
    unfold selectDue
    by_cases h : isDue now c = true
    · simp [h, ih]
    · simp [h, ih]

theorem isDue_iff (now : Int) (c : Flashcard) :
    isDue now c = true ↔ (c.correctCount < 3 ∨ now - c.lastReview ≥ 86400) := by
  simp [isDue, difftime]

/-- C2. Due selection: the list built by the selection loop of `reviewCards` is
the sub-sequence, in insertion order, of the cards with `correctCount < 3` or
`now - lastReview >= 86400`; a card is in it exactly when it is in the Card Set
and satisfies that condition, and a satisfying card occurs in it as often as in
the Card Set. -/
theorem selectDue_spec (now : Int) (cards : List Flashcard) :
    selectDue now cards [] =
        cards.filter (fun c => decide (c.correctCount < 3 ∨ now - c.lastReview ≥ 86400)) ∧
      (selectDue now cards []).Sublist cards ∧
      (∀ c, c ∈ selectDue now cards [] ↔
        (c ∈ cards ∧ (c.correctCount < 3 ∨ now - c.lastReview ≥ 86400))) ∧
      (∀ c, (c.correctCount < 3 ∨ now - c.lastReview ≥ 86400) →
        (selectDue now cards []).count c = cards.count c) ∧
      (∀ c, ¬ (c.correctCount < 3 ∨ now - c.lastReview ≥ 86400) →
        (selectDue now cards []).count c = 0) := by
  have hfun : (fun c : Flashcard => decide (c.correctCount < 3 ∨ now - c.lastReview ≥ 86400)) =
      isDue now := by
    funext c
    simp [isDue, difftime]
  have hsel : selectDue now cards [] = cards.filter (isDue now) := by
    rw [selectDue_acc]; simp
  refine ⟨by rw [hfun, hsel], ?_, ?_, ?_, ?_⟩
  · rw [hsel]; exact List.filter_sublist cards
  · intro c
    rw [hsel, List.mem_filter, isDue_iff]
  · intro c hc
    rw [hsel, List.count_filter ((isDue_iff now c).2 hc)]
  · intro c hc
    rw [hsel, List.count_eq_zero, List.mem_filter, isDue_iff]
    exact fun h => hc h.2

/-- C5. Due monotonicity: a card with `correctCount >= 3` and
`now - lastReview < 86400` is in no due subset; a card due at `now` with count
`c` is due at every later `now'` and with every smaller count; every card with
`correctCount < 3` is due at every `now`; every card is due at every
`now >= lastReview + 86400`; and a due card of the Card Set is selected. -/
theorem due_monotone (now now' : Int) (c c' : Flashcard) (cards : List Flashcard) :
    ((3 ≤ c.correctCount ∧ now - c.lastReview < 86400) →
        isDue now c = false ∧ c ∉ selectDue now cards []) ∧
      ((isDue now c = true ∧ now ≤ now' ∧ c'.correctCount ≤ c.correctCount ∧
          c'.lastReview = c.lastReview) → isDue now' c' = true) ∧
      (c.correctCount < 3 → isDue now c = true) ∧
      (now ≥ c.lastReview + 86400 → isDue now c = true) ∧
      ((isDue now c = true ∧ c ∈ cards) → c ∈ selectDue now cards []) := by
  have hsel : selectDue now cards [] = cards.filter (isDue now) := by
    rw [selectDue_acc]; simp
  refine ⟨?_, ?_, ?_, ?_, ?_⟩
  · rintro ⟨h3, hlt⟩
    have hnot : ¬ (isDue now c = true) := by
      rw [isDue_iff]; omega
    refine ⟨by simpa using hnot, ?_⟩
    rw [hsel, List.mem_filter]
    exact fun h => hnot h.2
  · rintro ⟨hd, hnow, hcount, hlast⟩
    rw [isDue_iff] at hd ⊢
    rw [hlast]
    omega
  · intro h
    rw [isDue_iff]
    exact Or.inl h
  · intro h
    rw [isDue_iff]
    right
    omega
  · rintro ⟨hd, hmem⟩
    rw [hsel, List.mem_filter]
    exact ⟨hmem, hd⟩

/-- Witness for C5: a mastered card reviewed at time `1000` is not due one
second before the day is over, is due when the day is over, and is due at once
when its count drops to `2`. -/
theorem due_monotone_witness :
    (isDue 87399 { front := ['a'], back := ['b'], correctCount := 3, lastReview := 1000 } = false ∧
      ({ front := ['a'], back := ['b'], correctCount := 3, lastReview := 1000 } : Flashcard) ∉
        selectDue 87399
          [{ front := ['a'], back := ['b'], correctCount := 3, lastReview := 1000 }] []) ∧
      isDue 87400 { front := ['a'], back := ['b'], correctCount := 3, lastReview := 1000 } = true ∧
      isDue 87399 { front := ['a'], back := ['b'], correctCount := 2, lastReview := 1000 } = true :=
  ⟨(due_monotone 87399 87399 { front := ['a'], back := ['b'], correctCount := 3, lastReview := 1000 }
      { front := ['a'], back := ['b'], correctCount := 3, lastReview := 1000 }
      [{ front := ['a'], back := ['b'], correctCount := 3, lastReview := 1000 }]).1
      ⟨by decide, by decide⟩,
    (due_monotone 87400 87400 { front := ['a'], back := ['b'], correctCount := 3, lastReview := 1000 }
      { front := ['a'], back := ['b'], correctCount := 3, lastReview := 1000 } []).2.2.2.1
      (by decide),
    (due_monotone 87399 87399 { front := ['a'], back := ['b'], correctCount := 2, lastReview := 1000 }
      { front := ['a'], back := ['b'], correctCount := 2, lastReview := 1000 } []).2.2.1
      (by decide)⟩

/-! ## Answer transition theorems -/

theorem wrapInt_of_int (x : Int) (h : INT_MIN ≤ x ∧ x ≤ INT_MAX) : wrapInt x = x := by
  unfold INT_MIN INT_MAX at h
  unfold wrapInt
  omega

theorem applyResult_calls (time : Nat → Int) (f : List Char) (correct : Bool)
    (cards : List Flashcard) (k : Nat) :
    (applyResult time f correct cards k).2 = k + cards.countP (fun c => decide (c.front = f)) := by
  induction cards generalizing k with
  | nil => simp [applyResult]
  | cons c cs ih =>
    unfold applyResult
    by_cases h : c.front = f
    · simp [h, ih]; omega
    · simp [h, ih]

theorem applyResult_getElem? (time : Nat → Int) (f : List Char) (correct : Bool)
    (cards : List Flashcard) (k i : Nat) :
    (applyResult time f correct cards k).1[i]? =
      (cards[i]?).map fun c =>
        if c.front = f then
          mark correct (time (k + (cards.take i).countP (fun x => decide (x.front = f)))) c
        else c := by
  induction cards generalizing k i with
  | nil => simp [applyResult]
  | cons c cs ih =>
    unfold applyResult
    by_cases h : c.front = f
    · cases i with
      | zero => simp [h]
      | succ i =>
        simp only [h, if_true, List.getElem?_cons_succ, ih, List.take_succ_cons,
          List.countP_cons_of_pos, decide_True]
        congr 1
        funext x
        have : k + 1 + List.countP (fun x => decide (x.front = f)) (List.take i cs) =
            k + (List.countP (fun x => decide (x.front = f)) (List.take i cs) + 1) := by omega
        rw [this]
    · cases i with
      | zero => simp [h]
      | succ i =>
        simp [h, ih]

theorem applyResult_length (time : Nat → Int) (f : List Char) (correct : Bool)
    (cards : List Flashcard) (k : Nat) :
    (applyResult time f correct cards k).1.length = cards.length := by
  induction cards generalizing k with
  | nil => simp [applyResult]
  | cons c cs ih =>
    unfold applyResult
    by_cases h : c.front = f
    · simp [h, ih]
    · simp [h, ih]

theorem countP_take_lt (p : Flashcard → Bool) (cards : List Flashcard) (i : Nat) (c : Flashcard)
    (hi : cards[i]? = some c) (hp : p c = true) :
    (cards.take i).countP p < cards.countP p := by
  induction cards generalizing i with
  | nil => simp at hi
  | cons a as ih =>
    cases i with
    | zero =>
      simp at hi
      subst hi
      simp [List.countP_cons_of_pos, hp]
    | succ i =>
      simp only [List.getElem?_cons_succ] at hi
      have := ih i hi
      simp only [List.take_succ_cons, List.countP_cons]
      omega

theorem mark_count_exact (b : Bool) (t : Int) (c : Flashcard)
    (hint : INT_MIN ≤ c.correctCount ∧ c.correctCount ≤ INT_MAX)
    (hmax : b = true → c.correctCount < INT_MAX)
    (hmin : b = false → INT_MIN < c.correctCount) :
    (mark b t c).correctCount =
      if b = true then c.correctCount + 1 else max 0 (c.correctCount - 1) := by
  cases b with
  | true =>
    have hm := hmax rfl
    have hw : wrapInt (c.correctCount + 1) = c.correctCount + 1 :=
      wrapInt_of_int _ (by unfold INT_MIN INT_MAX at *; omega)
    simp [mark, markCorrect, hw]
  | false =>
    have hm := hmin rfl
    have hw : wrapInt (c.correctCount - 1) = c.correctCount - 1 :=
      wrapInt_of_int _ (by unfold INT_MIN INT_MAX at *; omega)
    simp [mark, markIncorrect, hw]

/-- C3, amended. Answer transition: when the clock reads `t` at every call made
by the update loop, then after the update for front `f` every card whose
front equals `f` (each of them, at every position, not only the first match)
keeps its front and back and has `lastReview = t`; such a card has
`correctCount = old + 1` after a correct answer provided `old` was below
`INT_MAX`, and `correctCount = max(0, old - 1)` after an incorrect answer
provided `old` was above `INT_MIN`; the number of cards is unchanged. -/
theorem applyResult_updates_all (time : Nat → Int) (f : List Char) (correct : Bool)
    (cards : List Flashcard) (k : Nat) (t : Int)
    (hclock : ∀ j, k ≤ j → j < k + cards.countP (fun c => decide (c.front = f)) → time j = t) :
    (applyResult time f correct cards k).1.length = cards.length ∧
      ∀ (i : Nat) (c : Flashcard), cards[i]? = some c → c.front = f →
        ∃ r : Flashcard, (applyResult time f correct cards k).1[i]? = some r ∧
          r.front = c.front ∧ r.back = c.back ∧ r.lastReview = t ∧
          (INT_MIN ≤ c.correctCount ∧ c.correctCount ≤ INT_MAX →
            (correct = true → c.correctCount < INT_MAX) →
            (correct = false → INT_MIN < c.correctCount) →
            r.correctCount =
              if correct = true then c.correctCount + 1 else max 0 (c.correctCount - 1)) := by
  refine ⟨applyResult_length time f correct cards k, ?_⟩
  intro i c hi hf
  have hlt := countP_take_lt (fun x => decide (x.front = f)) cards i c hi (by simp [hf])
  have ht := hclock (k + (cards.take i).countP (fun x => decide (x.front = f))) (by omega)
    (by omega)
  refine ⟨mark correct t c, ?_, by cases correct <;> rfl, by cases correct <;> rfl,
    by cases correct <;> rfl, fun hint hmax hmin => mark_count_exact correct t c hint hmax hmin⟩
  rw [applyResult_getElem?, hi]
  simp only [Option.map_some', hf, if_true, ht]

/-- Witness for C3 amended: two cards share the front `a`; a correct answer at
time `50` raises both counts, an unrelated card is between them; shown for
the second match, whose count goes from `7` to `8`. -/
theorem applyResult_updates_all_witness :
    ∃ r : Flashcard,
      (applyResult (fun _ => 50) ['a'] true
        [{ front := ['a'], back := ['x'], correctCount := 0, lastReview := 1 },
         { front := ['b'], back := ['y'], correctCount := 4, lastReview := 2 },
         { front := ['a'], back := ['z'], correctCount := 7, lastReview := 3 }] 0).1[2]? = some r ∧
      r.front = ['a'] ∧ r.back = ['z'] ∧ r.lastReview = 50 ∧ r.correctCount = 8 :=
  match (applyResult_updates_all (fun _ => 50) ['a'] true
      [{ front := ['a'], back := ['x'], correctCount := 0, lastReview := 1 },
       { front := ['b'], back := ['y'], correctCount := 4, lastReview := 2 },
       { front := ['a'], back := ['z'], correctCount := 7, lastReview := 3 }] 0 50
      (fun _ _ _ => rfl)).2 2
    { front := ['a'], back := ['z'], correctCount := 7, lastReview := 3 } rfl rfl with
  | ⟨r, hr, hf, hb, ht, hcount⟩ =>
    ⟨r, hr, hf, hb, ht,
      (hcount (by decide) (fun _ => by decide) (fun h => absurd h (by decide))).trans
        (by decide)⟩

/-- C3, the claim as stated fails at the ends of the range of `int`: the
well-formed card `("a","x",2147483647,1)` answered correctly does not end with
`old + 1` but with `-2147483648`, and the well-formed card
`("a","x",-2147483648,1)` answered incorrectly does not end with
`max(0, old - 1) = 0` but with `2147483647`. -/
theorem applyResult_overflow_counterexample :
    WellFormed { front := ['a'], back := ['x'], correctCount := 2147483647, lastReview := 1 } ∧
      (applyResult (fun _ => 50) ['a'] true
          [{ front := ['a'], back := ['x'], correctCount := 2147483647, lastReview := 1 }] 0).1 =
        [{ front := ['a'], back := ['x'], correctCount := -2147483648, lastReview := 50 }] ∧
      (-2147483648 : Int) ≠ 2147483647 + 1 ∧
      WellFormed { front := ['a'], back := ['x'], correctCount := -2147483648, lastReview := 1 } ∧
      (applyResult (fun _ => 50) ['a'] false
          [{ front := ['a'], back := ['x'], correctCount := -2147483648, lastReview := 1 }] 0).1 =
        [{ front := ['a'], back := ['x'], correctCount := 2147483647, lastReview := 50 }] ∧
      (2147483647 : Int) ≠ max 0 (-2147483648 - 1) := by
  refine ⟨by decide, by decide, by decide, by decide, by decide, by decide⟩

theorem mark_lastReview (correct : Bool) (t : Int) (c : Flashcard) :
    (mark correct t c).lastReview = t := by
  cases correct <;> rfl

theorem mark_count_bounds (correct : Bool) (t : Int) (c : Flashcard)
    (h0 : 0 ≤ c.correctCount) (hmax : c.correctCount < INT_MAX) :
    0 ≤ (mark correct t c).correctCount ∧
      (mark correct t c).correctCount ≤ c.correctCount + 1 := by
  cases correct with
  | true =>
    have hw : wrapInt (c.correctCount + 1) = c.correctCount + 1 :=
      wrapInt_of_int _ (by unfold INT_MIN INT_MAX at *; omega)
    simp only [mark, markCorrect, if_true, hw]
    omega
  | false =>
    have hw : wrapInt (c.correctCount - 1) = c.correctCount - 1 :=
      wrapInt_of_int _ (by unfold INT_MIN INT_MAX at *; omega)
    simp only [mark, markIncorrect, Bool.false_eq_true, if_false, hw]
    omega

theorem answerAll_take_succ (answers : List (Bool × Int)) (c : Flashcard) (k : Nat)
    (a : Bool × Int) (ha : answers[k]? = some a) :
    answerAll (answers.take (k + 1)) c = mark a.1 a.2 (answerAll (answers.take k) c) := by
  simp [answerAll, List.take_succ, ha, List.foldl_append]

theorem mark_nonneg (correct : Bool) (t : Int) (c : Flashcard)
    (h0 : 0 ≤ c.correctCount) (hmax : correct = true → c.correctCount < INT_MAX) :
    0 ≤ (mark correct t c).correctCount := by
  cases correct with
  | true =>
    have hm := hmax rfl
    have hw : wrapInt (c.correctCount + 1) = c.correctCount + 1 :=
      wrapInt_of_int _ (by unfold INT_MIN INT_MAX at *; omega)
    simp only [mark, markCorrect, if_true, hw]
    omega
  | false =>
    simp only [mark, markIncorrect, Bool.false_eq_true, if_false]
    exact le_max_left _ _

/-- C4, amended. Transition bounds: for every card and every finite sequence of
correct/incorrect answers applied to it with timestamps, after the answer at
position `k` the field `lastReview` is the timestamp of that answer, whatever
its outcome; and when the card starts with `correctCount >= 0` and no correct
answer of the sequence is applied while the count is `INT_MAX`, the count is
`>= 0` after every step of the sequence. -/
theorem transition_bounds (c : Flashcard) (answers : List (Bool × Int)) :
    (∀ k a, answers[k]? = some a →
        (answerAll (answers.take (k + 1)) c).lastReview = a.2) ∧
      (0 ≤ c.correctCount →
        (∀ k a, answers[k]? = some a → a.1 = true →
          (answerAll (answers.take k) c).correctCount < INT_MAX) →
        ∀ k, 0 ≤ (answerAll (answers.take k) c).correctCount) := by
  constructor
  · intro k a ha
    rw [answerAll_take_succ answers c k a ha, mark_lastReview]
  · intro h0 hno k
    induction k with
    | zero => simpa [answerAll] using h0
    | succ k ih =>
      cases hk : answers[k]? with
      | none =>
        have hlen : answers.length ≤ k := by
          rcases Nat.lt_or_ge k answers.length with h | h
          · rw [List.getElem?_eq_getElem h] at hk
            exact absurd hk (by simp)
          · exact h
        rw [List.take_of_length_le (by omega)]
        rw [List.take_of_length_le hlen] at ih
        exact ih
      | some a =>
        rw [answerAll_take_succ answers c k a hk]
        exact mark_nonneg a.1 a.2 _ ih (fun ht => hno k a hk ht)

/-- C4, the claim as stated fails: the card with `correctCount = 2147483647`,
which is `>= 0`, has the count `-2147483648` after one correct answer. -/
theorem transition_bounds_counterexample :
    (0 : Int) ≤ (Flashcard.mk ['a'] ['b'] 2147483647 0).correctCount ∧
      (answerAll (List.take 1 [(true, 10)])
        { front := ['a'], back := ['b'], correctCount := 2147483647, lastReview := 0 }).correctCount =
        -2147483648 ∧
      ¬ (0 : Int) ≤ (answerAll (List.take 1 [(true, 10)])
        { front := ['a'], back := ['b'], correctCount := 2147483647, lastReview := 0 }).correctCount := by
  refine ⟨by decide, by decide, by decide⟩

/-- Witness for C4 amended: from count `2147483646`, two wrong answers and a
right one; the count stays `>= 0` and `lastReview` is the last timestamp. -/
theorem transition_bounds_witness :
    (answerAll (List.take (2 + 1) [(false, 10), (false, 20), (true, 30)])
        { front := ['a'], back := ['b'], correctCount := 2147483646, lastReview := 0 }).lastReview =
        30 ∧
      0 ≤ (answerAll (List.take 3 [(false, 10), (false, 20), (true, 30)])
        { front := ['a'], back := ['b'], correctCount := 2147483646, lastReview := 0 }).correctCount :=
  ⟨(transition_bounds { front := ['a'], back := ['b'], correctCount := 2147483646, lastReview := 0 }
      [(false, 10), (false, 20), (true, 30)]).1 2 (true, 30) rfl,
   (transition_bounds { front := ['a'], back := ['b'], correctCount := 2147483646, lastReview := 0 }
      [(false, 10), (false, 20), (true, 30)]).2 (by decide)
      (fun k a h ht =>
        match k, h with
        | 0, h => by
          have ha : a = (false, 10) := by simpa using h.symm
          subst ha
          exact absurd ht (by decide)
        | 1, h => by
          have ha : a = (false, 20) := by simpa using h.symm
          subst ha
          exact absurd ht (by decide)
        | 2, _ => by decide
        | k + 3, h => by simp at h) 3⟩

/-! ## Statistics theorems -/

theorem countMastered_eq (cards : List Flashcard) (acc : Int) (h0 : 0 ≤ acc)
    (hmax : acc + cards.length ≤ INT_MAX) :
    countMastered cards acc = acc + cards.countP (fun c => decide (3 ≤ c.correctCount)) := by
  induction cards generalizing acc with
  | nil => simp [countMastered]
  | cons c cs ih =>
    simp only [List.length_cons, Nat.cast_add, Nat.cast_one] at hmax
    unfold countMastered
    by_cases h : c.correctCount ≥ 3
    · have hw : wrapInt (acc + 1) = acc + 1 :=
        wrapInt_of_int _ (by unfold INT_MIN INT_MAX at *; omega)
      have h3 : 3 ≤ c.correctCount := h
      simp only [h, if_true, hw]
      rw [ih (acc + 1) (by omega) (by omega), List.countP_cons_of_pos _ _ (by simpa using h3)]
      push_cast
      omega
    · have h3 : ¬ 3 ≤ c.correctCount := h
      simp only [h, if_false]
      rw [ih acc h0 (by omega), List.countP_cons_of_neg _ _ (by simpa using h3)]

theorem countMastered_none (cards : List Flashcard) (acc : Int)
    (h : ∀ c ∈ cards, c.correctCount < 3) : countMastered cards acc = acc := by
  induction cards generalizing acc with
  | nil => rfl
  | cons c cs ih =>
    have hc : ¬ c.correctCount ≥ 3 := by
      have := h c (List.mem_cons_self c cs)
      omega
    unfold countMastered
    simp only [hc, if_false]
    exact ih acc (fun x hx => h x (List.mem_cons_of_mem c hx))

theorem replicate_isEmpty (n : Nat) (c : Flashcard) (hn : 0 < n) :
    (List.replicate n c).isEmpty = false := by
  cases n with
  | zero => exact absurd hn (by decide)
  | succ n => rfl

theorem showStats_replicate_mastered (n : Nat) (c : Flashcard) (h3 : 3 ≤ c.correctCount)
    (hn : 0 < n) (hmax : (n : Int) ≤ INT_MAX) :
    showStats (List.replicate n c) =
      some (Stats.report (n : Int) (n : Int)
        (wrapInt (Int.tdiv (wrapInt ((n : Int) * 100)) (n : Int)))) := by
  have hcm : countMastered (List.replicate n c) 0 = (n : Int) := by
    rw [countMastered_eq _ 0 (le_refl 0) (by rw [List.length_replicate]; omega),
      List.countP_replicate]
    simp [h3]
  have hw1 : wrapInt (n : Int) = n :=
    wrapInt_of_int _ (by unfold INT_MIN INT_MAX at *; omega)
  have hn0 : (n : Int) ≠ 0 := by omega
  simp only [showStats, replicate_isEmpty n c hn, Bool.false_eq_true, if_false, hcm,
    List.length_replicate, hw1, intDiv, hn0, Option.map_some']

theorem showStats_replicate_unmastered (n : Nat) (c : Flashcard) (h3 : c.correctCount < 3)
    (hn : 0 < n) :
    showStats (List.replicate n c) =
      (intDiv (wrapInt (0 * 100)) (wrapInt (n : Int))).map
        fun pct => Stats.report (wrapInt (n : Int)) 0 pct := by
  have hcm : countMastered (List.replicate n c) 0 = 0 := by
    apply countMastered_none
    intro x hx
    rw [(List.mem_replicate.1 hx).2]
    exact h3
  simp only [showStats, replicate_isEmpty n c hn, Bool.false_eq_true, if_false, hcm,
    List.length_replicate]

/-- C6, amended. Mastery computation: for the empty Card Set `showStats` takes
the guarded branch, so the division is never evaluated with `total = 0`; for a
Card Set of at most `INT_MAX` cards the counter `mastered` of `showStats` is
the number of cards with `correctCount >= 3` and lies between 0 and `total`,
and for a non-empty one the division is evaluated with `total > 0` and
`showStats` reports `total`, `mastered` and the quotient of `mastered * 100`,
taken as an `int`, by `total`; when moreover `mastered * 100 <= INT_MAX`, the
reported percentage is `floor(mastered * 100 / total)`, lies between 0 and 100
and is 100 exactly when every card is mastered. -/
theorem showStats_spec (cards : List Flashcard) :
    showStats [] = some Stats.noCards ∧
      ((cards.length : Int) ≤ INT_MAX →
        countMastered cards 0 = (cards.countP (fun c => decide (3 ≤ c.correctCount)) : Nat) ∧
        (0 ≤ countMastered cards 0 ∧ countMastered cards 0 ≤ (cards.length : Nat)) ∧
        (cards ≠ [] →
          (0 < wrapInt (cards.length : Int) ∧
            showStats cards =
              some (Stats.report (cards.length : Nat)
                (cards.countP (fun c => decide (3 ≤ c.correctCount)) : Nat)
                (wrapInt (Int.tdiv
                  (wrapInt ((cards.countP (fun c => decide (3 ≤ c.correctCount)) : Nat) * 100))
                  (cards.length : Nat))))) ∧
          ((cards.countP (fun c => decide (3 ≤ c.correctCount)) : Int) * 100 ≤ INT_MAX →
            showStats cards =
                some (Stats.report (cards.length : Nat)
                  (cards.countP (fun c => decide (3 ≤ c.correctCount)) : Nat)
                  ((cards.countP (fun c => decide (3 ≤ c.correctCount)) * 100 / cards.length : Nat))) ∧
              cards.countP (fun c => decide (3 ≤ c.correctCount)) * 100 / cards.length ≤ 100 ∧
              (cards.countP (fun c => decide (3 ≤ c.correctCount)) * 100 / cards.length = 100 ↔
                ∀ c ∈ cards, 3 ≤ c.correctCount)))) := by
  refine ⟨rfl, ?_⟩
  intro htotal
  have hle : cards.countP (fun c => decide (3 ≤ c.correctCount)) ≤ cards.length :=
    List.countP_le_length _
  generalize hm : cards.countP (fun c => decide (3 ≤ c.correctCount)) = m at hle ⊢
  have hcm : countMastered cards 0 = (m : Int) := by
    rw [countMastered_eq cards 0 (le_refl 0) (by unfold INT_MAX at *; omega), hm]
    simp
  refine ⟨hcm, ⟨by rw [hcm]; omega, by rw [hcm]; omega⟩, ?_⟩
  intro hne
  have hpos : 0 < cards.length := List.length_pos.2 hne
  have hw1 : wrapInt (cards.length : Int) = cards.length :=
    wrapInt_of_int _ (by unfold INT_MIN INT_MAX at *; omega)
  have hn0 : ((cards.length : Nat) : Int) ≠ 0 := by omega
  have hemp : cards.isEmpty = false := by
    cases cards with
    | nil => exact absurd rfl hne
    | cons a as => rfl
  refine ⟨⟨by rw [hw1]; omega, ?_⟩, ?_⟩
  · simp only [showStats, hemp, Bool.false_eq_true, if_false, hcm, hw1, intDiv, hn0,
      Option.map_some']
  intro hsize
  have hpct : m * 100 / cards.length ≤ 100 := by
    apply Nat.div_le_of_le_mul
    nlinarith
  have hq : Int.tdiv ((m : Int) * 100) (cards.length : Int) = ((m * 100 / cards.length : Nat) : Int) := by
    rw [Int.tdiv_eq_ediv (by omega) (by omega)]
    push_cast
    rfl
  have hw2 : wrapInt ((m : Int) * 100) = (m : Int) * 100 :=
    wrapInt_of_int _ (by unfold INT_MIN INT_MAX at *; omega)
  have hw3 : wrapInt ((m * 100 / cards.length : Nat) : Int) = ((m * 100 / cards.length : Nat) : Int) := by
    generalize m * 100 / cards.length = q at hpct
    exact wrapInt_of_int _ (by unfold INT_MIN INT_MAX; omega)
  have hall : m = cards.length ↔ ∀ c ∈ cards, 3 ≤ c.correctCount := by
    rw [← hm, List.countP_eq_length]
    simp
  refine ⟨?_, hpct, ?_⟩
  · simp only [showStats, hemp, Bool.false_eq_true, if_false, hcm, hw1, hw2, intDiv, hn0, hq, hw3,
      Option.map_some']
  · rw [← hall]
    constructor
    · intro h
      have h1 := (Nat.le_div_iff_mul_le hpos).1 (le_of_eq h.symm)
      omega
    · intro h
      rw [h, Nat.mul_comm]
      exact Nat.mul_div_cancel 100 hpos

/-- C6, the claim as stated fails: for the Card Set of `21474837` cards that
all have `correctCount = 3` the product `mastered * 100` leaves the range of
`int` and the reported percentage is `-99`, which is neither
`floor(mastered * 100 / total) = 100` nor between 0 and 100; and for a Card
Set of `4294967296` cards, none mastered, `total` is `0` and the division is
evaluated with `total = 0`. -/
theorem showStats_overflow_counterexample :
    showStats (List.replicate 21474837
        { front := ['a'], back := ['x'], correctCount := 3, lastReview := 0 }) =
      some (Stats.report 21474837 21474837 (-99)) ∧
      21474837 * 100 / 21474837 = 100 ∧
      showStats (List.replicate 4294967296
        { front := ['a'], back := ['x'], correctCount := 0, lastReview := 0 }) = none :=
  ⟨(showStats_replicate_mastered 21474837 _ (by decide) (by decide) (by decide)).trans
      (by decide),
    by decide,
    (showStats_replicate_unmastered 4294967296 _ (by decide) (by decide)).trans (by decide)⟩

/-- Witness for C6 amended: three cards, two of them mastered, give 66 percent. -/
theorem showStats_spec_witness :
    showStats
        [{ front := ['a'], back := ['x'], correctCount := 3, lastReview := 1 },
         { front := ['b'], back := ['y'], correctCount := 2, lastReview := 2 },
         { front := ['c'], back := ['z'], correctCount := 5, lastReview := 3 }] =
      some (Stats.report 3 2 66) :=
  ((((showStats_spec
      [{ front := ['a'], back := ['x'], correctCount := 3, lastReview := 1 },
       { front := ['b'], back := ['y'], correctCount := 2, lastReview := 2 },
       { front := ['c'], back := ['z'], correctCount := 5, lastReview := 3 }]).2 (by decide)).2.2
    (by decide)).2 (by decide)).1

/-! ## Shuffle theorems -/

theorem set_perm_cons_eraseIdx {α : Type} (l : List α) (i : Nat) (a b : α)
    (h : l[i]? = some a) :
    (l.set i b).Perm (b :: l.eraseIdx i) ∧ l.Perm (a :: l.eraseIdx i) := by
  induction l generalizing i with
  | nil => simp at h
  | cons x xs ih =>
    cases i with
    | zero =>
      simp at h
      subst h
      simp
    | succ i =>
      simp only [List.getElem?_cons_succ] at h
      obtain ⟨h1, h2⟩ := ih i h
      simp only [List.set_cons_succ, List.eraseIdx_cons_succ]
      exact ⟨(h1.cons x).trans (List.Perm.swap b x _), (h2.cons x).trans (List.Perm.swap a x _)⟩

theorem set_same {α : Type} (l : List α) (i : Nat) (a : α) (h : l[i]? = some a) :
    l.set i a = l := by
  induction l generalizing i with
  | nil => rfl
  | cons x xs ih =>
    cases i with
    | zero =>
      simp at h
      simp [h]
    | succ i =>
      simp only [List.getElem?_cons_succ] at h
      simp [ih i h]

theorem swapAt_perm {α : Type} (l : List α) (i j : Nat) : (swapAt l i j).Perm l := by
  unfold swapAt
  cases hi : l[i]? with
  | none => exact List.Perm.refl l
  | some a =>
    cases hj : l[j]? with
    | none => exact List.Perm.refl l
    | some b =>
      simp only
      by_cases hij : i = j
      · subst hij
        have hab : a = b := by
          rw [hi] at hj
          exact Option.some.inj hj
        subst hab
        have hset : l.set i a = l := set_same l i a hi
        rw [hset, hset]
      · have hj' : (l.set i b)[j]? = some b := by
          rw [List.getElem?_set_ne hij, hj]
        obtain ⟨h1, h2⟩ := set_perm_cons_eraseIdx (l.set i b) j b a hj'
        obtain ⟨h3, h4⟩ := set_perm_cons_eraseIdx l i a b hi
        have hE : ((l.set i b).eraseIdx j).Perm (l.eraseIdx i) :=
          List.Perm.cons_inv (h2.symm.trans h3)
        exact h1.trans ((hE.cons a).trans h4.symm)

theorem shuffleLoop_perm {α : Type} (rand : Nat → Nat) (n i k : Nat) (l : List α) :
    (shuffleLoop rand n i k l).1.Perm l := by
  induction n generalizing i k l with
  | zero => exact List.Perm.refl l
  | succ n ih =>
    unfold shuffleLoop
    simp only
    by_cases h : i ≠ rand k % (i + 1)
    · rw [if_pos h]
      exact (ih _ _ _).trans (swapAt_perm l i _)
    · rw [if_neg h]
      exact ih _ _ _

theorem presentLoop_linesRead (env : Env) (l : List Flashcard) (st : State) :
    (presentLoop env l st).linesRead = st.linesRead + l.length := by
  induction l generalizing st with
  | nil => simp [presentLoop]
  | cons c cs ih =>
    unfold presentLoop
    simp only [State.print]
    split
    · rw [ih]
      simp only [List.length_cons]
      omega
    · rw [ih]
      simp only [List.length_cons]
      omega

/-! ## Store theorems -/

/-- C9. The method `addCard` yields exactly the old cards followed by the new
card `(f, b, 0, t)` with `t` the clock reading: the length grows by one, every
old card keeps its position and fields, also when the front `f` is already
present, and the file is rewritten with the new Card Set. -/
theorem addCard_appends (env : Env) (f b : List Char) (st : State) :
    (addCard env f b st).cards =
        st.cards ++ [{ front := f, back := b, correctCount := 0, lastReview := env.time st.timeCalls }] ∧
      (addCard env f b st).cards.length = st.cards.length + 1 ∧
      (∀ i, i < st.cards.length → (addCard env f b st).cards[i]? = st.cards[i]?) ∧
      (addCard env f b st).cards[st.cards.length]? =
        some { front := f, back := b, correctCount := 0, lastReview := env.time st.timeCalls } ∧
      ((∃ c ∈ st.cards, c.front = f) →
        (addCard env f b st).cards.length = st.cards.length + 1) ∧
      (addCard env f b st).file = some (saveCards (addCard env f b st).cards) := by
  refine ⟨rfl, by simp [addCard], ?_, by simp [addCard], fun _ => by simp [addCard], rfl⟩
  intro i hi
  simp [addCard, List.getElem?_append_left hi]

/-! ## Mastery scenario -/

theorem applyResults_calls_ge (time : Nat → Int) (rs : List (List Char × Bool))
    (cards : List Flashcard) (k : Nat) : k ≤ (applyResults time rs cards k).2 := by
  induction rs generalizing cards k with
  | nil => simp [applyResults]
  | cons r rs ih =>
    unfold applyResults
    have h1 := applyResult_calls time r.1 r.2 cards k
    have h2 := ih (applyResult time r.1 r.2 cards k).1 (applyResult time r.1 r.2 cards k).2
    simp only
    omega

theorem applyResult_match (time : Nat → Int) (f : List Char) (correct : Bool)
    (cards : List Flashcard) (k i : Nat) (c : Flashcard) (hc : cards[i]? = some c)
    (hf : c.front = f) :
    ∃ j, k ≤ j ∧ j < (applyResult time f correct cards k).2 ∧
      (applyResult time f correct cards k).1[i]? = some (mark correct (time j) c) := by
  have hlt := countP_take_lt (fun x => decide (x.front = f)) cards i c hc (by simp [hf])
  refine ⟨k + (cards.take i).countP (fun x => decide (x.front = f)), by omega, ?_, ?_⟩
  · rw [applyResult_calls]; omega
  · rw [applyResult_getElem?, hc]
    simp [hf]

theorem applyResult_other (time : Nat → Int) (f : List Char) (correct : Bool)
    (cards : List Flashcard) (k i : Nat) (c : Flashcard) (hc : cards[i]? = some c)
    (hf : c.front ≠ f) :
    (applyResult time f correct cards k).1[i]? = some c := by
  rw [applyResult_getElem?, hc]
  simp [hf]

theorem applyResults_all_correct (time : Nat → Int) (f : List Char)
    (rs : List (List Char × Bool)) (hrs : ∀ r ∈ rs, r.1 = f → r.2 = true)
    (cards : List Flashcard) (k i : Nat) (c : Flashcard) (hc : cards[i]? = some c)
    (hf : c.front = f) (hmin : INT_MIN ≤ c.correctCount)
    (hmax : c.correctCount + rs.countP (fun r => decide (r.1 = f)) ≤ INT_MAX) :
    ∃ c1, (applyResults time rs cards k).1[i]? = some c1 ∧ c1.front = f ∧
      c1.back = c.back ∧
      c1.correctCount = c.correctCount + rs.countP (fun r => decide (r.1 = f)) ∧
      (rs.countP (fun r => decide (r.1 = f)) = 0 → c1 = c) ∧
      (0 < rs.countP (fun r => decide (r.1 = f)) →
        ∃ j, k ≤ j ∧ j < (applyResults time rs cards k).2 ∧ c1.lastReview = time j) := by
  induction rs generalizing cards k c with
  | nil => exact ⟨c, by simpa [applyResults] using hc, hf, rfl, by simp, by simp, by simp⟩
  | cons r rs ih =>
    have hrs1 : ∀ x ∈ rs, x.1 = f → x.2 = true := fun x hx hxf => hrs x (by simp [hx]) hxf
    have hcalls := applyResult_calls time r.1 r.2 cards k
    have hge := applyResults_calls_ge time rs (applyResult time r.1 r.2 cards k).1
      (applyResult time r.1 r.2 cards k).2
    unfold applyResults
    simp only
    by_cases hr : r.1 = f
    · have hr2 : r.2 = true := hrs r (by simp) hr
      obtain ⟨j, hj1, hj2, hj3⟩ := applyResult_match time r.1 r.2 cards k i c hc (hf.trans hr.symm)
      rw [List.countP_cons_of_pos _ _ (by simp [hr])] at hmax ⊢
      simp only [Nat.cast_add, Nat.cast_one] at hmax ⊢
      have hw : wrapInt (c.correctCount + 1) = c.correctCount + 1 :=
        wrapInt_of_int _ (by unfold INT_MIN INT_MAX at *; omega)
      have hcc : (mark r.2 (time j) c).correctCount = c.correctCount + 1 := by
        rw [hr2]; exact hw
      have hfr : (mark r.2 (time j) c).front = f := by
        rw [hr2]; exact hf
      have hbk : (mark r.2 (time j) c).back = c.back := by
        rw [hr2]; rfl
      have hlr : (mark r.2 (time j) c).lastReview = time j := mark_lastReview _ _ _
      obtain ⟨c1, h1, h2, h3, h4, h6, h5⟩ := ih hrs1 _ (applyResult time r.1 r.2 cards k).2 _ hj3 hfr
        (by rw [hcc]; unfold INT_MIN at *; omega) (by rw [hcc]; omega)
      refine ⟨c1, h1, h2, h3.trans hbk, by rw [h4, hcc]; omega, fun h => by omega, fun _ => ?_⟩
      by_cases h0 : 0 < rs.countP (fun r => decide (r.1 = f))
      · obtain ⟨j1, hj4, hj5, hj6⟩ := h5 h0
        exact ⟨j1, by omega, hj5, hj6⟩
      · have hz : rs.countP (fun r => decide (r.1 = f)) = 0 := by omega
        refine ⟨j, hj1, by omega, ?_⟩
        rw [h6 hz, hlr]
    · have hne : c.front ≠ r.1 := fun e => hr (e.symm.trans hf)
      have hj3 := applyResult_other time r.1 r.2 cards k i c hc hne
      rw [List.countP_cons_of_neg _ _ (by simp [hr])] at hmax ⊢
      obtain ⟨c1, h1, h2, h3, h4, h6, h5⟩ := ih hrs1 _ (applyResult time r.1 r.2 cards k).2 _ hj3 hf
        hmin hmax
      refine ⟨c1, h1, h2, h3, h4, h6, fun h0 => ?_⟩
      obtain ⟨j1, hj4, hj5, hj6⟩ := h5 h0
      exact ⟨j1, by omega, hj5, hj6⟩

/-- C8. Mastery scenario: a card is due at every `now` while its count is below
3; for the card freshly appended by `addCard`, after any sequence of results in
which every result for its front is correct, its count is the number `n` of
those results, it is still due while `n < 3`, and when `n = 3` its
`lastReview` is the clock reading `t` of its last update, it is not due at any
`now` with `now - t < 86400` and due again at every `now >= t + 86400`.
Scenario: the Card Set `[("dog","perro",0,t0)]` reviewed at `t0 + 1` with the
answer `perro` has the card due, ends with count 1 and `lastReview = t0 + 1`,
is saved, and the card is still due. -/
theorem mastery_scenario (env : Env) (f b : List Char) (st : State)
    (rs : List (List Char × Bool)) (k : Nat) :
    (∀ (now : Int) (c : Flashcard), c.correctCount < 3 → isDue now c = true) ∧
      ((∀ r ∈ rs, r.1 = f → r.2 = true) →
        (rs.countP (fun r => decide (r.1 = f)) : Int) ≤ INT_MAX →
        ∃ c1, (applyResults env.time rs (addCard env f b st).cards k).1[st.cards.length]? = some c1 ∧
          c1.front = f ∧ c1.back = b ∧
          c1.correctCount = rs.countP (fun r => decide (r.1 = f)) ∧
          (rs.countP (fun r => decide (r.1 = f)) < 3 → ∀ now, isDue now c1 = true) ∧
          (rs.countP (fun r => decide (r.1 = f)) = 3 →
            ∃ j, k ≤ j ∧ j < (applyResults env.time rs (addCard env f b st).cards k).2 ∧
              c1.lastReview = env.time j ∧
              ∀ now, (now - env.time j < 86400 → isDue now c1 = false) ∧
                (env.time j + 86400 ≤ now → isDue now c1 = true))) ∧
      (∀ (t0 : Int) (rand : Nat → Nat),
        selectDue (t0 + 1)
            [{ front := ['d', 'o', 'g'], back := ['p', 'e', 'r', 'r', 'o'], correctCount := 0,
               lastReview := t0 }] [] =
          [{ front := ['d', 'o', 'g'], back := ['p', 'e', 'r', 'r', 'o'], correctCount := 0,
             lastReview := t0 }] ∧
        (reviewCards { time := fun _ => t0 + 1, rand := rand, cin := fun _ => ['p', 'e', 'r', 'r', 'o'] }
            { cards := [{ front := ['d', 'o', 'g'], back := ['p', 'e', 'r', 'r', 'o'],
                          correctCount := 0, lastReview := t0 }],
              file := none, cout := [], timeCalls := 0, randCalls := 0, linesRead := 0 }).cards =
          [{ front := ['d', 'o', 'g'], back := ['p', 'e', 'r', 'r', 'o'], correctCount := 1,
             lastReview := t0 + 1 }] ∧
        (reviewCards { time := fun _ => t0 + 1, rand := rand, cin := fun _ => ['p', 'e', 'r', 'r', 'o'] }
            { cards := [{ front := ['d', 'o', 'g'], back := ['p', 'e', 'r', 'r', 'o'],
                          correctCount := 0, lastReview := t0 }],
              file := none, cout := [], timeCalls := 0, randCalls := 0, linesRead := 0 }).file =
          some (saveCards [{ front := ['d', 'o', 'g'], back := ['p', 'e', 'r', 'r', 'o'],
                             correctCount := 1, lastReview := t0 + 1 }]) ∧
        isDue (t0 + 1)
            { front := ['d', 'o', 'g'], back := ['p', 'e', 'r', 'r', 'o'], correctCount := 1,
              lastReview := t0 + 1 } = true) := by
  refine ⟨fun now c h => (isDue_iff now c).2 (Or.inl h), ?_, ?_⟩
  · intro hrs hn
    have hnew : (addCard env f b st).cards[st.cards.length]? =
        some { front := f, back := b, correctCount := 0, lastReview := env.time st.timeCalls } := by
      simp [addCard]
    obtain ⟨c1, h1, h2, h3, h4, _, h5⟩ := applyResults_all_correct env.time f rs hrs
      (addCard env f b st).cards k st.cards.length _ hnew rfl (by simp [INT_MIN])
      (by simp only [zero_add]; exact hn)
    simp only [zero_add] at h4
    refine ⟨c1, h1, h2, h3, h4, ?_, ?_⟩
    · intro hlt now
      rw [isDue_iff]
      left
      rw [h4]
      omega
    · intro h3eq
      obtain ⟨j, hj1, hj2, hj3⟩ := h5 (by omega)
      refine ⟨j, hj1, hj2, hj3, fun now => ⟨fun hlt => ?_, fun hge => ?_⟩⟩
      · have hnot : ¬ (isDue now c1 = true) := by
          rw [isDue_iff, h4, hj3, h3eq]
          omega
        simpa using hnot
      · rw [isDue_iff, hj3]
        right
        omega
  · intro t0 rand
    refine ⟨?_, ?_, ?_, ?_⟩
    · simp [selectDue, isDue]
    · simp [reviewCards, selectDue, isDue, random_shuffle, shuffleLoop, presentLoop, State.print,
        applyResult, mark, markCorrect, wrapInt]
    · simp [reviewCards, selectDue, isDue, random_shuffle, shuffleLoop, presentLoop, State.print,
        applyResult, mark, markCorrect, wrapInt]
    · simp [isDue]

/-- Witness for C8: a card added to an empty store, then three correct answers
for its front with a wrong answer for another front in between, at clock
reading 500. -/
theorem mastery_scenario_witness :
    ∃ c1, (applyResults (fun _ => 500)
          [(['a'], true), (['z'], false), (['a'], true), (['a'], true)]
          (addCard { time := fun _ => 500, rand := fun _ => 0, cin := fun _ => [] } ['a'] ['b']
            { cards := [], file := none, cout := [], timeCalls := 0, randCalls := 0,
              linesRead := 0 }).cards 1).1[0]? = some c1 ∧
      c1.front = ['a'] ∧ c1.back = ['b'] ∧ c1.correctCount = 3 :=
  match (mastery_scenario { time := fun _ => 500, rand := fun _ => 0, cin := fun _ => [] } ['a'] ['b']
      { cards := [], file := none, cout := [], timeCalls := 0, randCalls := 0, linesRead := 0 }
      [(['a'], true), (['z'], false), (['a'], true), (['a'], true)] 1).2.1
      (by decide) (by decide) with
  | ⟨c1, h1, h2, h3, h4, _⟩ => ⟨c1, h1, h2, h3, h4⟩

/-! ## Truncated trailing record -/

theorem prefix_append_cases (p A R : List Char) (h : p <+: A ++ R) :
    p <+: A ∨ ∃ q, p = A ++ q ∧ q <+: R := by
  induction A generalizing p with
  | nil => exact Or.inr ⟨p, rfl, h⟩
  | cons a A ih =>
    rw [List.cons_append, List.prefix_cons_iff] at h
    rcases h with h | ⟨t, ht, htp⟩
    · exact Or.inl (h ▸ List.nil_prefix)
    · rcases ih t htp with h1 | ⟨q, hq, hqR⟩
      · exact Or.inl (ht ▸ (List.cons_prefix_cons.2 ⟨rfl, h1⟩))
      · exact Or.inr ⟨q, by rw [ht, hq]; rfl, hqR⟩

theorem getlineChars_no_newline (c : Char) (l : List Char) (h : '\n' ∉ c :: l) :
    getlineChars (c :: l) = (c :: l, [], true) := by
  induction l generalizing c with
  | nil =>
    have hc : c ≠ '\n' := fun e => h (by simp [e])
    simp [getlineChars, hc]
  | cons a l ih =>
    have hc : c ≠ '\n' := fun e => h (by simp [e])
    have hl : '\n' ∉ a :: l := fun e => h (List.mem_cons_of_mem c e)
    rw [getlineChars, if_neg hc, ih a hl]

theorem loadLoop_second_getline_fail (fuel : Nat) (s : IStream) (front back : List Char)
    (cards : List Flashcard) (h : (getline (getline s front).1 back).1.ok = false) :
    loadLoop (fuel + 1) s front back cards = some cards := by
  simp only [loadLoop, h]
  split <;> simp

theorem loadLoop_extract_fail (fuel : Nat) (s : IStream) (front back : List Char)
    (cards : List Flashcard)
    (h : (extractInt TIME_MIN TIME_MAX
      (extractInt INT_MIN INT_MAX (getline (getline s front).1 back).1).1).1.ok = false) :
    loadLoop (fuel + 1) s front back cards = some cards := by
  simp only [loadLoop, h]
  split
  · split <;> simp
  · rfl

theorem getline_not_good (s : IStream) (str : List Char) (h : s.good = false) :
    (getline s str).1.ok = false := by
  have he : getline s str = ({ s with failbit := true }, str) := by
    simp only [getline, h, Bool.false_eq_true, if_false]
  rw [he]
  simp [IStream.ok]

theorem extractInt_not_good (lo hi : Int) (s : IStream) (h : s.good = false) :
    (extractInt lo hi s).1.ok = false ∧ (extractInt lo hi s).1.good = false := by
  have he : extractInt lo hi s = ({ s with failbit := true }, none) := by
    simp only [extractInt, h, Bool.false_eq_true, if_false]
  rw [he]
  simp [IStream.ok, IStream.good]

/-- A prefix of a single line read by `getline` from a fresh stream: either
the read fails, or the stream is left at its end with `eofbit`. -/
theorem getline_prefix_of_line (p l str : List Char) (hl : '\n' ∉ l) (hp : p <+: l) :
    (getline { buf := p, eofbit := false, failbit := false } str).1.good = false := by
  cases p with
  | nil => simp [getline, IStream.good]
  | cons c cs =>
    have hn : '\n' ∉ c :: cs := fun e => hl (hp.subset e)
    simp [getline, IStream.good, getlineChars_no_newline c cs hn]

theorem showNatAux_digits (fuel n : Nat) (acc : List Char)
    (hacc : ∀ c ∈ acc, isdigit c = true) :
    ∀ c ∈ showNatAux fuel n acc, isdigit c = true := by
  induction fuel generalizing n acc with
  | zero => simpa [showNatAux] using hacc
  | succ f ih =>
    unfold showNatAux
    split
    · rename_i h10
      intro c hc
      rcases List.mem_cons.1 hc with h | h
      · rw [h]; exact isdigit_digitChar n h10
      · exact hacc c h
    · apply ih
      intro c hc
      rcases List.mem_cons.1 hc with h | h
      · rw [h]; exact isdigit_digitChar _ (Nat.mod_lt _ (by decide))
      · exact hacc c h

theorem showNat_digits (n : Nat) : ∀ c ∈ showNat n, isdigit c = true :=
  showNatAux_digits (n + 1) n [] (by simp)

theorem accumDigits_digits (l : List Char) (a : Nat) (h : ∀ c ∈ l, isdigit c = true) :
    (accumDigits l a).2 = [] := by
  induction l generalizing a with
  | nil => rfl
  | cons c cs ih =>
    have hc : isdigit c = true := h c (by simp)
    rw [accumDigits, if_pos hc]
    exact ih _ (fun x hx => h x (List.mem_cons_of_mem c hx))

theorem isdigit_facts (c : Char) (h : isdigit c = true) :
    isspace c = false ∧ c ≠ '-' ∧ c ≠ '+' := by
  refine ⟨?_, ?_, ?_⟩
  · cases hs : isspace c with
    | false => rfl
    | true =>
      simp only [isspace, Bool.or_eq_true, decide_eq_true_eq] at hs
      rcases hs with ((((hs | hs) | hs) | hs) | hs) | hs <;> (rw [hs] at h; exact absurd h (by decide))
  · intro e; rw [e] at h; exact absurd h (by decide)
  · intro e; rw [e] at h; exact absurd h (by decide)

theorem extractInt_eof (lo hi : Int) (c : Char) (cs : List Char) (hsp : isspace c = false)
    (hrest : (accumDigits (takeSign (c :: cs)).2 0).2 = []) :
    (extractInt lo hi { buf := c :: cs, eofbit := false, failbit := false }).1.good = false := by
  unfold extractInt
  simp only [IStream.good, Bool.not_false, Bool.and_self, if_true]
  rw [List.dropWhile_cons_of_neg (by simp [hsp])]
  simp only [hrest, List.isEmpty_nil]
  split_ifs <;> rfl

/-- Extraction from a prefix of the text of a number leaves the stream not good:
it fails, or it meets the end of the buffer. -/
theorem extractInt_prefix_showInt (lo hi x : Int) (q : List Char) (hq : q <+: showInt x) :
    (extractInt lo hi { buf := q, eofbit := false, failbit := false }).1.good = false := by
  cases q with
  | nil => simp [extractInt, IStream.good]
  | cons c cs =>
    unfold showInt at hq
    by_cases hneg : x < 0
    · rw [if_pos hneg] at hq
      obtain ⟨hc, hcs⟩ := List.cons_prefix_cons.1 hq
      subst hc
      apply extractInt_eof lo hi '-' cs (by decide)
      simp only [takeSign, if_true]
      exact accumDigits_digits cs 0 (fun x hx => showNat_digits _ x (hcs.subset hx))
    · rw [if_neg hneg] at hq
      have hall : ∀ y ∈ c :: cs, isdigit y = true := fun y hy => showNat_digits _ y (hq.subset hy)
      obtain ⟨hsp, hminus, hplus⟩ := isdigit_facts c (hall c (by simp))
      apply extractInt_eof lo hi c cs hsp
      simp only [takeSign, hminus, hplus, if_false]
      exact accumDigits_digits (c :: cs) 0 hall

theorem extractInt_blank_sign (v : List Char) (neg : Bool)
    (hv : v <+: (if neg = true then ['-'] else [])) :
    (extractInt TIME_MIN TIME_MAX { buf := ' ' :: v, eofbit := false, failbit := false }).1.ok =
      false := by
  have hcases : v = [] ∨ v = ['-'] := by
    cases neg with
    | false => exact Or.inl (by simpa using hv)
    | true =>
      simp only [if_true] at hv
      rcases List.prefix_cons_iff.1 hv with h | ⟨t, ht, htp⟩
      · exact Or.inl h
      · right
        rw [ht, List.prefix_nil.1 htp]
  rcases hcases with h | h <;> (rw [h]; decide)

theorem loadLoop_truncated (fuel : Nat) (r : Flashcard) (hr : WellFormed r) (p : List Char)
    (hp : p <+: recordHead r) (front back : List Char) (cards : List Flashcard) :
    loadLoop (fuel + 1) { buf := p, eofbit := false, failbit := false } front back cards =
      some cards := by
  obtain ⟨hf, hb, hcount, _⟩ := hr
  -- the cut falls inside the front line
  have inFront : ∀ p1 : List Char, p1 <+: r.front →
      loadLoop (fuel + 1) { buf := p1, eofbit := false, failbit := false } front back cards =
        some cards := fun p1 h1 =>
    loadLoop_second_getline_fail fuel _ front back cards
      (getline_not_good _ back (getline_prefix_of_line p1 r.front front hf h1))
  -- the cut falls inside the back line
  have inBack : ∀ t : List Char, t <+: r.back →
      loadLoop (fuel + 1) { buf := r.front ++ '\n' :: t, eofbit := false, failbit := false }
        front back cards = some cards := fun t ht => by
    apply loadLoop_extract_fail
    rw [getline_line r.front t front hf]
    have hg := getline_prefix_of_line t r.back back hb ht
    exact (extractInt_not_good _ _ _ (extractInt_not_good _ _ _ hg).2).1
  -- the cut falls inside the count
  have inCount : ∀ u : List Char, u <+: showInt r.correctCount →
      loadLoop (fuel + 1)
        { buf := r.front ++ '\n' :: (r.back ++ '\n' :: u), eofbit := false, failbit := false }
        front back cards = some cards := fun u hu => by
    apply loadLoop_extract_fail
    rw [getline_line r.front _ front hf, getline_line r.back u back hb]
    exact (extractInt_not_good _ _ _ (extractInt_prefix_showInt _ _ _ u hu)).1
  unfold recordHead at hp
  rcases prefix_append_cases p r.front _ hp with h1 | ⟨q1, hq1, hq1p⟩
  · exact inFront p h1
  rcases List.prefix_cons_iff.1 hq1p with h | ⟨t, ht, htp⟩
  · rw [hq1, h, List.append_nil]
    exact inFront r.front List.prefix_rfl
  rcases prefix_append_cases t r.back _ htp with h2 | ⟨q2, hq2, hq2p⟩
  · rw [hq1, ht]
    exact inBack t h2
  rcases List.prefix_cons_iff.1 hq2p with h | ⟨u, hu, hup⟩
  · rw [hq1, ht, hq2, h, List.append_nil]
    exact inBack r.back List.prefix_rfl
  rcases prefix_append_cases u (showInt r.correctCount) _ hup with h3 | ⟨q3, hq3, hq3p⟩
  · rw [hq1, ht, hq2, hu]
    exact inCount u h3
  rcases List.prefix_cons_iff.1 hq3p with h | ⟨v, hv, hvp⟩
  · rw [hq1, ht, hq2, hu, hq3, h, List.append_nil]
    exact inCount _ List.prefix_rfl
  -- the cut falls after the blank, before the first digit of `lastReview`
  rw [hq1, ht, hq2, hu, hq3, hv]
  apply loadLoop_extract_fail
  rw [getline_line r.front _ front hf, getline_line r.back _ back hb,
    extractInt_showInt INT_MIN INT_MAX r.correctCount hcount ' ' v (by decide)]
  exact extractInt_blank_sign v (decide (r.lastReview < 0)) (by simpa using hvp)

theorem recordHead_prefix (c : Flashcard) :
    recordHead c <+: saveCard c ∧ recordHead c ≠ saveCard c := by
  have hsplit : saveCard c = recordHead c ++ (showNat c.lastReview.natAbs ++ ['\n']) := by
    unfold saveCard recordHead showInt
    by_cases h : c.lastReview < 0 <;> simp [h]
  refine ⟨⟨_, hsplit.symm⟩, fun h => ?_⟩
  have hlen := congrArg List.length h
  rw [hsplit] at hlen
  simp at hlen

/-- C10, the claim as stated fails: the record `("a","b",0,57)` is written as
`a\nb\n0 57\n`; cut off after `5`, or after `57`, the text is a proper prefix
of it, and `loadCards` returns a card from it: `("a","b",0,5)`, which was
never saved, and `("a","b",0,57)`. -/
theorem truncated_record_counterexample :
    WellFormed { front := ['a'], back := ['b'], correctCount := 0, lastReview := 57 } ∧
      saveCard { front := ['a'], back := ['b'], correctCount := 0, lastReview := 57 } =
        ['a', '\n', 'b', '\n', '0', ' ', '5', '7', '\n'] ∧
      loadCards (some (saveCards [] ++ ['a', '\n', 'b', '\n', '0', ' ', '5'])) [] =
        some [{ front := ['a'], back := ['b'], correctCount := 0, lastReview := 5 }] ∧
      loadCards (some (saveCards [] ++ ['a', '\n', 'b', '\n', '0', ' ', '5', '7'])) [] =
        some [{ front := ['a'], back := ['b'], correctCount := 0, lastReview := 57 }] := by
  refine ⟨by decide, by decide, by decide, by decide⟩

/-- C10, amended. For every well-formed Card Set `cs`, every well-formed card `r`
and every prefix `p` of the text written for `r` that ends before the first
digit of `lastReview` (a prefix of `recordHead r`, itself a proper prefix of
the text of `r`), `loadCards` on the text of `cs` followed by `p` returns
exactly `cs`. -/
theorem truncated_record_dropped (cs : List Flashcard) (hcs : ∀ c ∈ cs, WellFormed c)
    (r : Flashcard) (hr : WellFormed r) (p : List Char) (hp : p <+: recordHead r) :
    (p <+: saveCard r ∧ p ≠ saveCard r) ∧
      loadCards (some (saveCards cs ++ p)) [] = some cs := by
  obtain ⟨hpre, hne⟩ := recordHead_prefix r
  refine ⟨⟨hp.trans hpre, fun h => hne ?_⟩, ?_⟩
  · have h1 : saveCard r <+: recordHead r := h ▸ hp
    exact List.IsPrefix.eq_of_length_le hpre (h1.length_le)
  · have hle := length_le_saveCards cs
    obtain ⟨f1, b1, h⟩ := loadLoop_saveCards cs hcs
      ((saveCards cs ++ p).length - cs.length + 1) p [] [] []
    have hfuel : (saveCards cs ++ p).length - cs.length + 1 + cs.length =
        (saveCards cs ++ p).length + 1 := by
      simp only [List.length_append]
      omega
    rw [hfuel, List.nil_append] at h
    simp only [loadCards, h]
    exact loadLoop_truncated _ r hr p hp f1 b1 cs

/-- Witness for C10 amended: after one saved card, the record `("a","b",0,-57)`
cut off right after the sign of `lastReview`. -/
theorem truncated_record_dropped_witness :
    loadCards (some (saveCards [{ front := ['x'], back := [], correctCount := 3, lastReview := 9 }] ++
        ['a', '\n', 'b', '\n', '0', ' ', '-'])) [] =
      some [{ front := ['x'], back := [], correctCount := 3, lastReview := 9 }] :=
  (truncated_record_dropped [{ front := ['x'], back := [], correctCount := 3, lastReview := 9 }]
    (by decide) { front := ['a'], back := ['b'], correctCount := 0, lastReview := -57 } (by decide)
    ['a', '\n', 'b', '\n', '0', ' ', '-'] (by decide)).2

/-! ## Frame of the answer transition -/

theorem mark_front (correct : Bool) (t : Int) (c : Flashcard) :
    (mark correct t c).front = c.front := by
  cases correct <;> rfl

theorem mark_back (correct : Bool) (t : Int) (c : Flashcard) :
    (mark correct t c).back = c.back := by
  cases correct <;> rfl

theorem applyResult_fronts (time : Nat → Int) (f : List Char) (correct : Bool)
    (cards : List Flashcard) (k : Nat) :
    (applyResult time f correct cards k).1.map (fun c => (c.front, c.back)) =
      cards.map (fun c => (c.front, c.back)) := by
  induction cards generalizing k with
  | nil => simp [applyResult]
  | cons c cs ih =>
    unfold applyResult
    by_cases h : c.front = f
    · simp only [h, if_true, List.map_cons, ih, mark_front, mark_back]
    · simp only [h, if_false, List.map_cons, ih]

theorem applyResults_fronts (time : Nat → Int) (rs : List (List Char × Bool))
    (cards : List Flashcard) (k : Nat) :
    (applyResults time rs cards k).1.map (fun c => (c.front, c.back)) =
      cards.map (fun c => (c.front, c.back)) := by
  induction rs generalizing cards k with
  | nil => simp [applyResults]
  | cons r rs ih =>
    unfold applyResults
    simp only
    rw [ih, applyResult_fronts]

theorem presentLoop_eq_applyResults (env : Env) (l : List Flashcard) (st : State) :
    (presentLoop env l st).cards =
        (applyResults env.time (sessionResults env.cin l st.linesRead) st.cards st.timeCalls).1 ∧
      (presentLoop env l st).timeCalls =
        (applyResults env.time (sessionResults env.cin l st.linesRead) st.cards st.timeCalls).2 ∧
      (presentLoop env l st).file = st.file ∧
      (presentLoop env l st).randCalls = st.randCalls := by
  induction l generalizing st with
  | nil => simp [presentLoop, sessionResults, applyResults]
  | cons c cs ih =>
    unfold presentLoop
    simp only [State.print, sessionResults, applyResults]
    by_cases h : env.cin st.linesRead = c.back
    · simp only [h, if_true, decide_True]
      exact ih _
    · simp only [h, if_false, decide_False]
      exact ih _

theorem reviewCards_eq_applyResults (env : Env) (st : State) :
    (reviewCards env st).cards =
      (applyResults env.time
        (sessionResults env.cin
          (random_shuffle env.rand st.randCalls
            (selectDue (env.time st.timeCalls) st.cards [])).1 st.linesRead)
        st.cards (st.timeCalls + 1)).1 := by
  unfold reviewCards
  cases hc : st.cards with
  | nil =>
    simp [State.print, hc, selectDue, random_shuffle, shuffleLoop, sessionResults, applyResults]
  | cons a as =>
    simp only [List.isEmpty_cons, Bool.false_eq_true, if_false]
    cases hd : selectDue (env.time st.timeCalls) (a :: as) [] with
    | nil =>
      simp [State.print, hc, random_shuffle, shuffleLoop, sessionResults, applyResults]
    | cons d ds =>
      simp only [List.isEmpty_cons, Bool.false_eq_true, if_false]
      rw [(presentLoop_eq_applyResults env _ _).1]

theorem applyResults_untouched (time : Nat → Int) (rs : List (List Char × Bool))
    (cards : List Flashcard) (k i : Nat) (c : Flashcard) (hc : cards[i]? = some c)
    (h : ∀ r ∈ rs, r.1 ≠ c.front) :
    (applyResults time rs cards k).1[i]? = some c := by
  induction rs generalizing cards k with
  | nil => simpa [applyResults] using hc
  | cons r rs ih =>
    unfold applyResults
    simp only
    have hne : c.front ≠ r.1 := fun e => h r (by simp) e.symm
    exact ih _ _ (applyResult_other time r.1 r.2 cards k i c hc hne)
      (fun x hx => h x (by simp [hx]))

theorem sessionResults_fronts (cin : Nat → List Char) (l : List Flashcard) (n : Nat) :
    (sessionResults cin l n).map (fun r => r.1) = l.map (fun c => c.front) := by
  induction l generalizing n with
  | nil => rfl
  | cons c cs ih => simp [sessionResults, ih]

theorem selectDue_eq_filter (now : Int) (cards : List Flashcard) :
    selectDue now cards [] = cards.filter (isDue now) := by
  rw [selectDue_acc]; simp

theorem shuffle_mem (rand : Nat → Nat) (k : Nat) (l : List Flashcard) (d : Flashcard) :
    d ∈ (random_shuffle rand k l).1 ↔ d ∈ l :=
  (shuffleLoop_perm rand _ _ _ l).mem_iff

/-- C15. Frame of the review transition: the update for front `f` keeps the
number of cards and, position by position, every front and back; a card whose
front differs from `f` keeps all four fields, and a card with front `f` keeps
its front and back.  A whole call of `reviewCards` likewise keeps the number
of cards and every front and back in place, and leaves every card unchanged
whose front is not the front of a due card. -/
theorem review_frame (env : Env) (st : State) (time : Nat → Int) (f : List Char)
    (correct : Bool) (cards : List Flashcard) (k : Nat) :
    (applyResult time f correct cards k).1.length = cards.length ∧
      (applyResult time f correct cards k).1.map (fun c => (c.front, c.back)) =
        cards.map (fun c => (c.front, c.back)) ∧
      (∀ (i : Nat) (c : Flashcard), cards[i]? = some c → c.front ≠ f →
        (applyResult time f correct cards k).1[i]? = some c) ∧
      (∀ (i : Nat) (c : Flashcard), cards[i]? = some c → c.front = f →
        ∃ c1, (applyResult time f correct cards k).1[i]? = some c1 ∧
          c1.front = c.front ∧ c1.back = c.back) ∧
      (reviewCards env st).cards.length = st.cards.length ∧
      (reviewCards env st).cards.map (fun c => (c.front, c.back)) =
        st.cards.map (fun c => (c.front, c.back)) ∧
      (∀ (i : Nat) (c : Flashcard), st.cards[i]? = some c →
        (∀ d ∈ selectDue (env.time st.timeCalls) st.cards [], d.front ≠ c.front) →
        (reviewCards env st).cards[i]? = some c) := by
  have hmap : (reviewCards env st).cards.map (fun c => (c.front, c.back)) =
      st.cards.map (fun c => (c.front, c.back)) := by
    rw [reviewCards_eq_applyResults, applyResults_fronts]
  refine ⟨applyResult_length time f correct cards k, applyResult_fronts time f correct cards k,
    fun i c hc hf => applyResult_other time f correct cards k i c hc hf, ?_, ?_, hmap, ?_⟩
  · intro i c hc hf
    obtain ⟨j, _, _, hj⟩ := applyResult_match time f correct cards k i c hc hf
    exact ⟨_, hj, mark_front _ _ _, mark_back _ _ _⟩
  · have := congrArg List.length hmap
    simpa using this
  · intro i c hc hdue
    rw [reviewCards_eq_applyResults]
    apply applyResults_untouched _ _ _ _ _ _ hc
    intro r hr hrf
    have hmem : r.1 ∈ (sessionResults env.cin
        (random_shuffle env.rand st.randCalls
          (selectDue (env.time st.timeCalls) st.cards [])).1 st.linesRead).map (fun r => r.1) :=
      List.mem_map_of_mem _ hr
    rw [sessionResults_fronts, List.mem_map] at hmem
    obtain ⟨d, hd, hdf⟩ := hmem
    exact hdue d ((shuffle_mem _ _ _ d).1 hd) (hdf.trans hrf)

/-- Witness for C15: the update for front `a` leaves the card with front `b`
alone, and the card with front `a` keeps its front and back. -/
theorem review_frame_witness :
    (applyResult (fun _ => 9) ['a'] false
        [{ front := ['a'], back := ['x'], correctCount := 2, lastReview := 1 },
         { front := ['b'], back := ['y'], correctCount := 4, lastReview := 2 }] 0).1[1]? =
      some { front := ['b'], back := ['y'], correctCount := 4, lastReview := 2 } :=
  (review_frame { time := fun _ => 9, rand := fun _ => 0, cin := fun _ => [] }
    { cards := [], file := none, cout := [], timeCalls := 0, randCalls := 0, linesRead := 0 }
    (fun _ => 9) ['a'] false
    [{ front := ['a'], back := ['x'], correctCount := 2, lastReview := 1 },
     { front := ['b'], back := ['y'], correctCount := 4, lastReview := 2 }] 0).2.2.1 1
    { front := ['b'], back := ['y'], correctCount := 4, lastReview := 2 } rfl (by decide)

/-! ## Sessions in which nothing is due -/

/-- C12. No mutation when nothing is due: when the Card Set is empty, or every
card has `correctCount >= 3` and `now - lastReview < 86400` for the clock
reading `now` of the session, `reviewCards` leaves `cards` as it is, does not
write the file, reads no line from the terminal and draws no random number.
In particular a store constructed from an absent file stays empty and the
file stays absent. -/
theorem review_nothing_due (env : Env) (st : State)
    (h : st.cards = [] ∨
      ∀ c ∈ st.cards, 3 ≤ c.correctCount ∧ env.time st.timeCalls - c.lastReview < 86400) :
    (reviewCards env st).cards = st.cards ∧
      (reviewCards env st).file = st.file ∧
      (reviewCards env st).linesRead = st.linesRead ∧
      (reviewCards env st).randCalls = st.randCalls ∧
      (construct none).map (fun s =>
        ((reviewCards env s).cards, (reviewCards env s).file, (reviewCards env s).linesRead)) =
        some ([], none, 0) := by
  have hlast : (construct none).map (fun s =>
      ((reviewCards env s).cards, (reviewCards env s).file, (reviewCards env s).linesRead)) =
      some ([], none, 0) := by
    simp [construct, loadCards, reviewCards, State.print]
  refine ⟨?_, ?_, ?_, ?_, hlast⟩ <;> clear hlast
  all_goals by_cases hc : st.cards = []
  all_goals first
    | (simp [reviewCards, hc, State.print]; done)
    | skip
  all_goals
    have hall : ∀ c ∈ st.cards,
        3 ≤ c.correctCount ∧ env.time st.timeCalls - c.lastReview < 86400 := by
      rcases h with h | h
      · exact absurd h hc
      · exact h
    have hdue : selectDue (env.time st.timeCalls) st.cards [] = [] := by
      rw [selectDue_eq_filter, List.filter_eq_nil_iff]
      intro c hmem hd
      have := hall c hmem
      rw [isDue_iff] at hd
      omega
    have hemp : st.cards.isEmpty = false := by
      cases hcs : st.cards with
      | nil => exact absurd hcs hc
      | cons a as => rfl
    simp [reviewCards, hemp, hdue, State.print]

/-- Witness for C12: one mastered card reviewed an hour ago. -/
theorem review_nothing_due_witness :
    (reviewCards { time := fun _ => 5000, rand := fun _ => 0, cin := fun _ => ['x'] }
        { cards := [{ front := ['a'], back := ['x'], correctCount := 3, lastReview := 1400 }],
          file := none, cout := [], timeCalls := 0, randCalls := 0, linesRead := 0 }).cards =
      [{ front := ['a'], back := ['x'], correctCount := 3, lastReview := 1400 }] :=
  (review_nothing_due { time := fun _ => 5000, rand := fun _ => 0, cin := fun _ => ['x'] }
    { cards := [{ front := ['a'], back := ['x'], correctCount := 3, lastReview := 1400 }],
      file := none, cout := [], timeCalls := 0, randCalls := 0, linesRead := 0 }
    (Or.inr (by decide))).1

/-! ## Sessions with shared fronts -/

theorem answerAll_cons (a : Bool × Int) (as : List (Bool × Int)) (c : Flashcard) :
    answerAll (a :: as) c = answerAll as (mark a.1 a.2 c) := rfl

theorem applyResults_answerAll (time : Nat → Int) (rs : List (List Char × Bool))
    (cards : List Flashcard) (k i : Nat) (c : Flashcard) (hc : cards[i]? = some c) :
    ∃ answers : List (Bool × Int),
      answers.map (fun a => a.1) =
          (rs.filter (fun r => decide (r.1 = c.front))).map (fun r => r.2) ∧
        (applyResults time rs cards k).1[i]? = some (answerAll answers c) := by
  induction rs generalizing cards k c with
  | nil => exact ⟨[], rfl, by simpa [applyResults, answerAll] using hc⟩
  | cons r rs ih =>
    unfold applyResults
    simp only
    by_cases hf : r.1 = c.front
    · obtain ⟨j, _, _, hj⟩ := applyResult_match time r.1 r.2 cards k i c hc hf.symm
      obtain ⟨as, has, hres⟩ := ih _ (applyResult time r.1 r.2 cards k).2 _ hj
      rw [mark_front] at has
      refine ⟨(r.2, time j) :: as, ?_, ?_⟩
      · rw [List.filter_cons_of_pos (by simpa using hf)]
        simp [has]
      · rw [answerAll_cons]
        exact hres
    · have hne : c.front ≠ r.1 := fun e => hf e.symm
      obtain ⟨as, has, hres⟩ := ih _ (applyResult time r.1 r.2 cards k).2 _
        (applyResult_other time r.1 r.2 cards k i c hc hne)
      refine ⟨as, ?_, hres⟩
      rw [List.filter_cons_of_neg (by simpa using hf)]
      exact has

theorem sessionResults_countP (cin : Nat → List Char) (l : List Flashcard) (n : Nat)
    (f : List Char) :
    ((sessionResults cin l n).filter (fun r => decide (r.1 = f))).length =
      l.countP (fun d => decide (d.front = f)) := by
  induction l generalizing n with
  | nil => rfl
  | cons d ds ih =>
    by_cases h : d.front = f
    · rw [sessionResults, List.filter_cons_of_pos (by simpa using h),
        List.countP_cons_of_pos _ _ (by simpa using h), List.length_cons, ih]
    · rw [sessionResults, List.filter_cons_of_neg (by simpa using h),
        List.countP_cons_of_neg _ _ (by simpa using h), ih]

/-- C16. Duplicate fronts multiply transitions: the cards after `reviewCards`
are the result of running the update loop once for each card of the shuffled
due list, in presentation order, each time on all store cards with that
front; so a store card receives as many transitions as there are due cards
with its front.  Two due cards with front `a` and count 0, both answered
correctly, both end with count 2; and a card that is not due is still changed
when a due card shares its front. -/
theorem duplicate_fronts_multiply (env : Env) (st : State) :
    (reviewCards env st).cards =
        (applyResults env.time
          (sessionResults env.cin
            (random_shuffle env.rand st.randCalls
              (selectDue (env.time st.timeCalls) st.cards [])).1 st.linesRead)
          st.cards (st.timeCalls + 1)).1 ∧
      (∀ (i : Nat) (c : Flashcard), st.cards[i]? = some c →
        ∃ answers : List (Bool × Int),
          answers.length =
              (selectDue (env.time st.timeCalls) st.cards []).countP
                (fun d => decide (d.front = c.front)) ∧
            (reviewCards env st).cards[i]? = some (answerAll answers c)) ∧
      (reviewCards { time := fun _ => 7, rand := fun _ => 0,
                     cin := fun n => if n = 0 then ['y'] else ['x'] }
          { cards := [{ front := ['a'], back := ['x'], correctCount := 0, lastReview := 1 },
                      { front := ['a'], back := ['y'], correctCount := 0, lastReview := 2 }],
            file := none, cout := [], timeCalls := 0, randCalls := 0, linesRead := 0 }).cards =
        [{ front := ['a'], back := ['x'], correctCount := 2, lastReview := 7 },
         { front := ['a'], back := ['y'], correctCount := 2, lastReview := 7 }] ∧
      (isDue 7 { front := ['a'], back := ['y'], correctCount := 5, lastReview := 2 } = false ∧
        (reviewCards { time := fun _ => 7, rand := fun _ => 0, cin := fun _ => ['x'] }
            { cards := [{ front := ['a'], back := ['x'], correctCount := 0, lastReview := 1 },
                        { front := ['a'], back := ['y'], correctCount := 5, lastReview := 2 }],
              file := none, cout := [], timeCalls := 0, randCalls := 0, linesRead := 0 }).cards =
          [{ front := ['a'], back := ['x'], correctCount := 1, lastReview := 7 },
           { front := ['a'], back := ['y'], correctCount := 6, lastReview := 7 }]) := by
  refine ⟨reviewCards_eq_applyResults env st, ?_, by decide, by decide, by decide⟩
  intro i c hc
  obtain ⟨answers, has, hres⟩ := applyResults_answerAll env.time
    (sessionResults env.cin
      (random_shuffle env.rand st.randCalls
        (selectDue (env.time st.timeCalls) st.cards [])).1 st.linesRead)
    st.cards (st.timeCalls + 1) i c hc
  refine ⟨answers, ?_, by rw [reviewCards_eq_applyResults]; exact hres⟩
  have hlen := congrArg List.length has
  rw [List.length_map, List.length_map, sessionResults_countP] at hlen
  rw [hlen]
  exact (shuffleLoop_perm env.rand _ _ _ _).countP_eq _

/-! ## Sessions with pairwise distinct fronts -/

theorem countP_front_one (cards : List Flashcard) (f : List Char)
    (hnd : (cards.map (fun c => c.front)).Nodup) (hf : f ∈ cards.map (fun c => c.front)) :
    cards.countP (fun c => decide (c.front = f)) = 1 := by
  induction cards with
  | nil => simp at hf
  | cons c cs ih =>
    rw [List.map_cons, List.nodup_cons] at hnd
    by_cases h : c.front = f
    · rw [List.countP_cons_of_pos _ _ (by simpa using h)]
      have hz : cs.countP (fun c => decide (c.front = f)) = 0 := by
        rw [List.countP_eq_zero]
        intro x hx hxf
        exact hnd.1 (List.mem_map.2 ⟨x, hx, (of_decide_eq_true hxf).trans h.symm⟩)
      omega
    · rw [List.countP_cons_of_neg _ _ (by simpa using h)]
      rcases List.mem_cons.1 hf with hf | hf
      · exact absurd hf.symm h
      · exact ih hnd.2 hf

theorem applyResult_map_front (time : Nat → Int) (f : List Char) (correct : Bool)
    (cards : List Flashcard) (k : Nat) :
    (applyResult time f correct cards k).1.map (fun c => c.front) =
      cards.map (fun c => c.front) := by
  have h := congrArg (List.map (fun p : List Char × List Char => p.1))
    (applyResult_fronts time f correct cards k)
  simpa [List.map_map] using h

/-- With pairwise distinct fronts in the store and in the presented list, the
card presented at position `j` is marked once, with the answer read and the
clock reading of that moment, and the clock is read once per presented card. -/
theorem applyResults_unique (time : Nat → Int) (cin : Nat → List Char) (l : List Flashcard)
    (cards : List Flashcard) (k n i : Nat) (c : Flashcard)
    (hnd : (cards.map (fun c => c.front)).Nodup) (hl : (l.map (fun c => c.front)).Nodup)
    (hsub : ∀ d ∈ l, d.front ∈ cards.map (fun c => c.front)) (hc : cards[i]? = some c) :
    (applyResults time (sessionResults cin l n) cards k).2 = k + l.length ∧
      ∀ (j : Nat) (d : Flashcard), l[j]? = some d → d.front = c.front →
        (applyResults time (sessionResults cin l n) cards k).1[i]? =
          some (mark (decide (cin (n + j) = d.back)) (time (k + j)) c) := by
  induction l generalizing cards k n c with
  | nil => exact ⟨rfl, fun j d hj => by simp at hj⟩
  | cons d ds ih =>
    rw [List.map_cons, List.nodup_cons] at hl
    have hdf : d.front ∈ cards.map (fun c => c.front) := hsub d (by simp)
    have hone := countP_front_one cards d.front hnd hdf
    have hcalls := applyResult_calls time d.front (decide (cin n = d.back)) cards k
    rw [hone] at hcalls
    have hfr := applyResult_map_front time d.front (decide (cin n = d.back)) cards k
    have hget := applyResult_getElem? time d.front (decide (cin n = d.back)) cards k i
    rw [hc] at hget
    simp only [Option.map_some'] at hget
    simp only [sessionResults, applyResults]
    rw [hcalls]
    by_cases hcf : c.front = d.front
    · have hlt := countP_take_lt (fun x => decide (x.front = d.front)) cards i c hc (by simp [hcf])
      have hz : (cards.take i).countP (fun x => decide (x.front = d.front)) = 0 := by omega
      rw [if_pos hcf, hz] at hget
      obtain ⟨h2, _⟩ := ih (applyResult time d.front (decide (cin n = d.back)) cards k).1 (k + 1)
        (n + 1) _ (by rw [hfr]; exact hnd) hl.2
        (fun x hx => by rw [hfr]; exact hsub x (by simp [hx])) hget
      refine ⟨by rw [h2, List.length_cons]; omega, ?_⟩
      intro j d1 hj hd1
      cases j with
      | zero =>
        simp only [List.getElem?_cons_zero, Option.some.injEq] at hj
        subst hj
        apply applyResults_untouched _ _ _ _ _ _ hget
        intro r hr hrf
        have hmem : r.1 ∈ (sessionResults cin ds (n + 1)).map (fun r => r.1) :=
          List.mem_map_of_mem _ hr
        rw [sessionResults_fronts] at hmem
        rw [hrf, mark_front, hcf] at hmem
        exact hl.1 hmem
      | succ j =>
        simp only [List.getElem?_cons_succ] at hj
        exact absurd (List.mem_map.2 ⟨d1, List.getElem?_mem hj, hd1.trans hcf⟩) hl.1
    · rw [if_neg hcf] at hget
      obtain ⟨h2, h3⟩ := ih (applyResult time d.front (decide (cin n = d.back)) cards k).1 (k + 1)
        (n + 1) _ (by rw [hfr]; exact hnd) hl.2
        (fun x hx => by rw [hfr]; exact hsub x (by simp [hx])) hget
      refine ⟨by rw [h2, List.length_cons]; omega, ?_⟩
      intro j d1 hj hd1
      cases j with
      | zero =>
        simp only [List.getElem?_cons_zero, Option.some.injEq] at hj
        subst hj
        exact absurd hd1.symm hcf
      | succ j =>
        simp only [List.getElem?_cons_succ] at hj
        have := h3 j d1 hj hd1
        rw [this]
        have e1 : n + 1 + j = n + (j + 1) := by omega
        have e2 : k + 1 + j = k + (j + 1) := by omega
        rw [e1, e2]

theorem applyResults_length (time : Nat → Int) (rs : List (List Char × Bool))
    (cards : List Flashcard) (k : Nat) :
    (applyResults time rs cards k).1.length = cards.length := by
  have h := congrArg List.length (applyResults_fronts time rs cards k)
  simpa using h

theorem front_unique (cards : List Flashcard) (hnd : (cards.map (fun c => c.front)).Nodup)
    (c d : Flashcard) (hc : c ∈ cards) (hd : d ∈ cards) (h : d.front = c.front) : d = c :=
  List.inj_on_of_nodup_map hnd hd hc h

theorem due_fronts_nodup (now : Int) (cards l : List Flashcard)
    (hnd : (cards.map (fun c => c.front)).Nodup) (hl : l.Perm (selectDue now cards [])) :
    (l.map (fun c => c.front)).Nodup ∧ ∀ d, d ∈ l ↔ (d ∈ cards ∧ isDue now d = true) := by
  rw [selectDue_eq_filter] at hl
  constructor
  · have hsub : ((cards.filter (isDue now)).map (fun c => c.front)).Nodup :=
      List.Nodup.sublist ((List.filter_sublist cards).map _) hnd
    exact List.Nodup.perm hsub (hl.symm.map _)
  · intro d
    rw [hl.mem_iff, List.mem_filter]

/-- C14, amended. One transition per due card per session: in a store with
pairwise distinct fronts, after `reviewCards` every card that was due at the
start has been presented at one position `j` of the shuffled list and the
card at its place has the same front and back, has `lastReview` equal to the
clock reading of that update, and has received one transition of the count:
`+ 1` when the line read for it equals its back exactly, provided the count
was below `INT_MAX`, and `max(0, count - 1)` when the line differs, provided
the count was above `INT_MIN`; every card that was not due is unchanged in
all four fields. -/
theorem one_transition_per_due_card (env : Env) (st : State)
    (hnd : (st.cards.map (fun c => c.front)).Nodup)
    (i : Nat) (c : Flashcard) (hc : st.cards[i]? = some c) :
    (isDue (env.time st.timeCalls) c = true →
        ∃ (j : Nat) (r : Flashcard),
          (random_shuffle env.rand st.randCalls
              (selectDue (env.time st.timeCalls) st.cards [])).1[j]? = some c ∧
          (reviewCards env st).cards[i]? = some r ∧
          r.front = c.front ∧ r.back = c.back ∧
          r.lastReview = env.time (st.timeCalls + 1 + j) ∧
          (INT_MIN ≤ c.correctCount ∧ c.correctCount ≤ INT_MAX →
            (env.cin (st.linesRead + j) = c.back → c.correctCount < INT_MAX) →
            (env.cin (st.linesRead + j) ≠ c.back → INT_MIN < c.correctCount) →
            r.correctCount =
              if env.cin (st.linesRead + j) = c.back then c.correctCount + 1
              else max 0 (c.correctCount - 1))) ∧
      (isDue (env.time st.timeCalls) c = false → (reviewCards env st).cards[i]? = some c) := by
  have hperm : (random_shuffle env.rand st.randCalls
      (selectDue (env.time st.timeCalls) st.cards [])).1.Perm
      (selectDue (env.time st.timeCalls) st.cards []) := shuffleLoop_perm env.rand _ _ _ _
  obtain ⟨hl, hmem⟩ := due_fronts_nodup _ st.cards _ hnd hperm
  have hcmem : c ∈ st.cards := List.getElem?_mem hc
  constructor
  · intro hdue
    obtain ⟨j, hj⟩ := List.mem_iff_getElem?.1 ((hmem c).2 ⟨hcmem, hdue⟩)
    have h := (applyResults_unique env.time env.cin _ st.cards (st.timeCalls + 1) st.linesRead i c
      hnd hl (fun d hd => List.mem_map_of_mem _ ((hmem d).1 hd).1) hc).2 j c hj rfl
    refine ⟨j, mark (decide (env.cin (st.linesRead + j) = c.back))
      (env.time (st.timeCalls + 1 + j)) c, hj, ?_, mark_front _ _ c, mark_back _ _ c,
      mark_lastReview _ _ c, ?_⟩
    · rw [reviewCards_eq_applyResults]
      exact h
    · intro hint hmax hmin
      rw [mark_count_exact _ _ c hint (fun hb => hmax (of_decide_eq_true hb))
        (fun hb => hmin (of_decide_eq_false hb))]
      simp
  · intro hnot
    rw [reviewCards_eq_applyResults]
    apply applyResults_untouched _ _ _ _ _ _ hc
    intro r hr hrf
    have hm : r.1 ∈ (sessionResults env.cin
        (random_shuffle env.rand st.randCalls
          (selectDue (env.time st.timeCalls) st.cards [])).1 st.linesRead).map (fun r => r.1) :=
      List.mem_map_of_mem _ hr
    rw [sessionResults_fronts, List.mem_map] at hm
    obtain ⟨d, hd, hdf⟩ := hm
    obtain ⟨hdc, hdd⟩ := (hmem d).1 hd
    have := front_unique st.cards hnd c d hcmem hdc (hdf.trans hrf)
    rw [this, hnot] at hdd
    exact absurd hdd (by decide)

/-- C14, the claim as stated fails: in the store with the one card
`("a","x",2147483647,0)`, which is due at the clock reading `100000`, the
answer `x` equals the back exactly, yet after the session the count is not
`correctCount + 1` but `-2147483648`. -/
theorem one_transition_overflow_counterexample :
    ([Flashcard.mk ['a'] ['x'] 2147483647 0].map (fun c => c.front)).Nodup ∧
      isDue 100000 { front := ['a'], back := ['x'], correctCount := 2147483647, lastReview := 0 } =
        true ∧
      (reviewCards { time := fun _ => 100000, rand := fun _ => 0, cin := fun _ => ['x'] }
        { cards := [{ front := ['a'], back := ['x'], correctCount := 2147483647, lastReview := 0 }],
          file := none, cout := [], timeCalls := 0, randCalls := 0, linesRead := 0 }).cards =
        [{ front := ['a'], back := ['x'], correctCount := -2147483648, lastReview := 100000 }] ∧
      (-2147483648 : Int) ≠ 2147483647 + 1 := by
  refine ⟨by decide, by decide, by decide, by decide⟩

/-- Witness for C14 amended: the due card `a`, answered with its back exactly,
goes from count `1` to count `2` with the clock reading of the update. -/
theorem one_transition_per_due_card_witness :
    ∃ (j : Nat) (r : Flashcard),
      (random_shuffle (fun _ => 0) 0
          (selectDue 100
            [{ front := ['a'], back := ['x'], correctCount := 1, lastReview := 1 },
             { front := ['b'], back := ['y'], correctCount := 4, lastReview := 2 }] [])).1[j]? =
        some { front := ['a'], back := ['x'], correctCount := 1, lastReview := 1 } ∧
      (reviewCards { time := fun _ => 100, rand := fun _ => 0, cin := fun _ => ['x'] }
        { cards := [{ front := ['a'], back := ['x'], correctCount := 1, lastReview := 1 },
                    { front := ['b'], back := ['y'], correctCount := 4, lastReview := 2 }],
          file := none, cout := [], timeCalls := 0, randCalls := 0, linesRead := 0 }).cards[0]? =
        some r ∧
      r.front = ['a'] ∧ r.back = ['x'] ∧ r.lastReview = 100 ∧ r.correctCount = 2 :=
  match (one_transition_per_due_card
    { time := fun _ => 100, rand := fun _ => 0, cin := fun _ => ['x'] }
    { cards := [{ front := ['a'], back := ['x'], correctCount := 1, lastReview := 1 },
                { front := ['b'], back := ['y'], correctCount := 4, lastReview := 2 }],
      file := none, cout := [], timeCalls := 0, randCalls := 0, linesRead := 0 }
    (by decide) 0
    { front := ['a'], back := ['x'], correctCount := 1, lastReview := 1 } rfl).1 (by decide) with
  | ⟨j, r, hj, hr, hf, hb, ht, hcount⟩ =>
    ⟨j, r, hj, hr, hf, hb, ht,
      (hcount (by decide) (fun _ => by decide) (fun hne => absurd rfl hne)).trans (by simp)⟩

/-! ## Shuffle coverage of a session -/

theorem presentLoop_cout (env : Env) (l : List Flashcard) (st : State) :
    (presentLoop env l st).cout = st.cout ++ transcript env.cin l st.linesRead := by
  induction l generalizing st with
  | nil => simp [presentLoop, transcript]
  | cons c cs ih =>
    unfold presentLoop
    simp only [State.print]
    split
    · rename_i h
      rw [ih]
      simp only [transcript, cardText, h, if_true, List.append_assoc]
    · rename_i h
      rw [ih]
      simp only [transcript, cardText, h, if_false, List.append_assoc]

/-- C7. Shuffle coverage: whatever the random numbers, the order in which
`reviewCards` presents cards is the list that `std::random_shuffle` makes of
the due subset, and it is a permutation of the due subset (same length, every
card as often as in the due subset): when some card is due, the session
writes, after what was on the terminal before, exactly the prompt and the
verdict of each card of that list, in its order, each with the answer read
for it; the update loops run for the fronts of that list in that order; and
the session reads exactly as many lines as there are due cards. The swap loop
yields a permutation of any list, and the presentation loop shows each card of
the list it is given once, in order, and reads one line per card. -/
theorem shuffle_coverage (env : Env) (st : State) (rand : Nat → Nat) (k : Nat)
    (dueCards : List Flashcard) :
    (random_shuffle rand k dueCards).1.Perm dueCards ∧
      (random_shuffle rand k dueCards).1.length = dueCards.length ∧
      (∀ c, (random_shuffle rand k dueCards).1.count c = dueCards.count c) ∧
      (presentLoop env dueCards st).cout = st.cout ++ transcript env.cin dueCards st.linesRead ∧
      (presentLoop env (random_shuffle rand k dueCards).1 st).linesRead =
        st.linesRead + dueCards.length ∧
      (random_shuffle env.rand st.randCalls
          (selectDue (env.time st.timeCalls) st.cards [])).1.Perm
        (selectDue (env.time st.timeCalls) st.cards []) ∧
      (∀ c, (random_shuffle env.rand st.randCalls
          (selectDue (env.time st.timeCalls) st.cards [])).1.count c =
        (st.cards.filter (isDue (env.time st.timeCalls))).count c) ∧
      (selectDue (env.time st.timeCalls) st.cards [] ≠ [] →
        (reviewCards env st).cout =
          st.cout ++ transcript env.cin
            (random_shuffle env.rand st.randCalls
              (selectDue (env.time st.timeCalls) st.cards [])).1 st.linesRead) ∧
      (reviewCards env st).cards =
        (applyResults env.time
          (sessionResults env.cin
            (random_shuffle env.rand st.randCalls
              (selectDue (env.time st.timeCalls) st.cards [])).1 st.linesRead)
          st.cards (st.timeCalls + 1)).1 ∧
      (reviewCards env st).linesRead =
        st.linesRead + (selectDue (env.time st.timeCalls) st.cards []).length := by
  have hp : (random_shuffle rand k dueCards).1.Perm dueCards := shuffleLoop_perm rand _ _ _ _
  have hq : (random_shuffle env.rand st.randCalls
      (selectDue (env.time st.timeCalls) st.cards [])).1.Perm
      (selectDue (env.time st.timeCalls) st.cards []) := shuffleLoop_perm env.rand _ _ _ _
  refine ⟨hp, hp.length_eq, fun c => hp.count_eq c, presentLoop_cout env dueCards st, ?_, hq,
    ?_, ?_, reviewCards_eq_applyResults env st, ?_⟩
  · rw [presentLoop_linesRead, hp.length_eq]
  · intro c
    rw [hq.count_eq c, selectDue_eq_filter]
  · intro hne
    unfold reviewCards
    cases hc : st.cards with
    | nil => rw [hc] at hne; exact absurd rfl hne
    | cons a as =>
      rw [hc] at hne
      simp only [List.isEmpty_cons, Bool.false_eq_true, if_false]
      cases hd : selectDue (env.time st.timeCalls) (a :: as) [] with
      | nil => exact absurd hd hne
      | cons d ds =>
        simp only [List.isEmpty_cons, Bool.false_eq_true, if_false, presentLoop_cout]
  · unfold reviewCards
    cases hc : st.cards with
    | nil => simp [State.print, selectDue]
    | cons a as =>
      simp only [List.isEmpty_cons, Bool.false_eq_true, if_false]
      cases hd : selectDue (env.time st.timeCalls) (a :: as) [] with
      | nil => simp [State.print]
      | cons d ds =>
        simp only [List.isEmpty_cons, Bool.false_eq_true, if_false, presentLoop_linesRead]
        have hq : (random_shuffle env.rand st.randCalls (d :: ds)).1.Perm (d :: ds) :=
          shuffleLoop_perm env.rand _ _ _ _
        rw [hq.length_eq]

/-! ## Presentation order -/

theorem applyResults_unique_closed (time : Nat → Int) (cin : Nat → List Char)
    (l cards : List Flashcard) (k n : Nat) (t : Int) (typed : Flashcard → List Char)
    (hnd : (cards.map (fun c => c.front)).Nodup) (hl : (l.map (fun c => c.front)).Nodup)
    (hmem : ∀ d ∈ l, d ∈ cards) (hclock : ∀ m, time m = t)
    (hans : ∀ (j : Nat) (d : Flashcard), l[j]? = some d → cin (n + j) = typed d) :
    (applyResults time (sessionResults cin l n) cards k).1 =
      cards.map (fun c => if c ∈ l then mark (decide (typed c = c.back)) t c else c) := by
  apply List.ext_getElem?
  intro i
  rw [List.getElem?_map]
  cases hc : cards[i]? with
  | none =>
    simp only [Option.map_none']
    rw [List.getElem?_eq_none_iff, applyResults_length]
    exact List.getElem?_eq_none_iff.1 hc
  | some c =>
    simp only [Option.map_some']
    by_cases hcl : c ∈ l
    · obtain ⟨j, hj⟩ := List.mem_iff_getElem?.1 hcl
      have h := (applyResults_unique time cin l cards k n i c hnd hl
        (fun d hd => List.mem_map_of_mem _ (hmem d hd)) hc).2 j c hj rfl
      rw [h, if_pos hcl, hans j c hj, hclock]
    · rw [if_neg hcl]
      apply applyResults_untouched _ _ _ _ _ _ hc
      intro r hr hrf
      have hm : r.1 ∈ (sessionResults cin l n).map (fun r => r.1) := List.mem_map_of_mem _ hr
      rw [sessionResults_fronts, List.mem_map] at hm
      obtain ⟨d, hd, hdf⟩ := hm
      have := front_unique cards hnd c d (List.getElem?_mem hc) (hmem d hd) (hdf.trans hrf)
      exact hcl (this ▸ hd)

/-- C18. Presentation order does not affect the outcome when fronts are
unique: in a store with pairwise distinct fronts, with a clock that reads `t`
throughout and answers that depend only on the card (`typed c` is what is
typed for card `c`), presenting any two permutations of the due subset ends
with the same Card Set, and so do two calls of `reviewCards` that differ in
the random numbers.  With a shared front it fails: for two cards with front
`a` and count 0, one answered correctly and one not, the two orders end with
counts 0 and 1. -/
theorem order_independent (env1 env2 : Env) (st : State) (now t : Int)
    (typed : Flashcard → List Char) (l1 l2 : List Flashcard)
    (hnd : (st.cards.map (fun c => c.front)).Nodup)
    (hp1 : l1.Perm (selectDue now st.cards [])) (hp2 : l2.Perm (selectDue now st.cards []))
    (hc1 : ∀ m, env1.time m = t) (hc2 : ∀ m, env2.time m = t)
    (ha1 : ∀ (j : Nat) (d : Flashcard), l1[j]? = some d → env1.cin (st.linesRead + j) = typed d)
    (ha2 : ∀ (j : Nat) (d : Flashcard), l2[j]? = some d → env2.cin (st.linesRead + j) = typed d) :
    (presentLoop env1 l1 st).cards = (presentLoop env2 l2 st).cards ∧
      (presentLoop env1 l1 st).cards =
        st.cards.map (fun c =>
          if isDue now c = true then mark (decide (typed c = c.back)) t c else c) ∧
      ((∀ (j : Nat) (d : Flashcard),
          (random_shuffle env1.rand st.randCalls (selectDue t st.cards [])).1[j]? = some d →
            env1.cin (st.linesRead + j) = typed d) →
        (∀ (j : Nat) (d : Flashcard),
          (random_shuffle env2.rand st.randCalls (selectDue t st.cards [])).1[j]? = some d →
            env2.cin (st.linesRead + j) = typed d) →
        (reviewCards env1 st).cards = (reviewCards env2 st).cards) ∧
      (presentLoop { time := fun _ => 5, rand := fun _ => 0,
                     cin := fun n => if n = 0 then ['x'] else ['z'] }
          [{ front := ['a'], back := ['x'], correctCount := 0, lastReview := 1 },
           { front := ['a'], back := ['y'], correctCount := 0, lastReview := 1 }]
          { cards := [{ front := ['a'], back := ['x'], correctCount := 0, lastReview := 1 },
                      { front := ['a'], back := ['y'], correctCount := 0, lastReview := 1 }],
            file := none, cout := [], timeCalls := 0, randCalls := 0, linesRead := 0 }).cards ≠
        (presentLoop { time := fun _ => 5, rand := fun _ => 0,
                       cin := fun n => if n = 0 then ['z'] else ['x'] }
          [{ front := ['a'], back := ['y'], correctCount := 0, lastReview := 1 },
           { front := ['a'], back := ['x'], correctCount := 0, lastReview := 1 }]
          { cards := [{ front := ['a'], back := ['x'], correctCount := 0, lastReview := 1 },
                      { front := ['a'], back := ['y'], correctCount := 0, lastReview := 1 }],
            file := none, cout := [], timeCalls := 0, randCalls := 0, linesRead := 0 }).cards := by
  have closed : ∀ (env : Env) (l : List Flashcard) (u : Int), l.Perm (selectDue u st.cards []) →
      (∀ m, env.time m = t) →
      (∀ (j : Nat) (d : Flashcard), l[j]? = some d → env.cin (st.linesRead + j) = typed d) →
      ∀ k, (applyResults env.time (sessionResults env.cin l st.linesRead) st.cards k).1 =
        st.cards.map (fun c =>
          if isDue u c = true then mark (decide (typed c = c.back)) t c else c) := by
    intro env l u hp hc ha k
    obtain ⟨hl, hmem⟩ := due_fronts_nodup u st.cards l hnd hp
    rw [applyResults_unique_closed env.time env.cin l st.cards k st.linesRead t typed hnd hl
      (fun d hd => ((hmem d).1 hd).1) hc ha]
    apply List.map_congr_left
    intro c hcm
    by_cases hd : isDue u c = true
    · rw [if_pos hd, if_pos ((hmem c).2 ⟨hcm, hd⟩)]
    · rw [if_neg hd, if_neg (fun h => hd ((hmem c).1 h).2)]
  have e1 := closed env1 l1 now hp1 hc1 ha1 st.timeCalls
  have e2 := closed env2 l2 now hp2 hc2 ha2 st.timeCalls
  refine ⟨?_, ?_, ?_, by decide⟩
  · rw [(presentLoop_eq_applyResults env1 l1 st).1, (presentLoop_eq_applyResults env2 l2 st).1,
      e1, e2]
  · rw [(presentLoop_eq_applyResults env1 l1 st).1, e1]
  · intro hs1 hs2
    have hsp1 : (random_shuffle env1.rand st.randCalls (selectDue t st.cards [])).1.Perm
        (selectDue t st.cards []) := shuffleLoop_perm env1.rand _ _ _ _
    have hsp2 : (random_shuffle env2.rand st.randCalls (selectDue t st.cards [])).1.Perm
        (selectDue t st.cards []) := shuffleLoop_perm env2.rand _ _ _ _
    rw [reviewCards_eq_applyResults, reviewCards_eq_applyResults, hc1, hc2,
      closed env1 _ t hsp1 hc1 hs1, closed env2 _ t hsp2 hc2 hs2]

/-- Witness for C18: two cards with fronts `a` and `b`, both due, presented in
the two possible orders with the answers following the cards. -/
theorem order_independent_witness :
    (presentLoop { time := fun _ => 5, rand := fun _ => 0,
                   cin := fun n => if n = 0 then ['x'] else ['z'] }
        [{ front := ['a'], back := ['x'], correctCount := 0, lastReview := 1 },
         { front := ['b'], back := ['y'], correctCount := 0, lastReview := 1 }]
        { cards := [{ front := ['a'], back := ['x'], correctCount := 0, lastReview := 1 },
                    { front := ['b'], back := ['y'], correctCount := 0, lastReview := 1 }],
          file := none, cout := [], timeCalls := 0, randCalls := 0, linesRead := 0 }).cards =
      (presentLoop { time := fun _ => 5, rand := fun _ => 0,
                     cin := fun n => if n = 0 then ['z'] else ['x'] }
        [{ front := ['b'], back := ['y'], correctCount := 0, lastReview := 1 },
         { front := ['a'], back := ['x'], correctCount := 0, lastReview := 1 }]
        { cards := [{ front := ['a'], back := ['x'], correctCount := 0, lastReview := 1 },
                    { front := ['b'], back := ['y'], correctCount := 0, lastReview := 1 }],
          file := none, cout := [], timeCalls := 0, randCalls := 0, linesRead := 0 }).cards :=
  (order_independent
    { time := fun _ => 5, rand := fun _ => 0, cin := fun n => if n = 0 then ['x'] else ['z'] }
    { time := fun _ => 5, rand := fun _ => 0, cin := fun n => if n = 0 then ['z'] else ['x'] }
    { cards := [{ front := ['a'], back := ['x'], correctCount := 0, lastReview := 1 },
                { front := ['b'], back := ['y'], correctCount := 0, lastReview := 1 }],
      file := none, cout := [], timeCalls := 0, randCalls := 0, linesRead := 0 }
    5 5 (fun c => if c.front = ['a'] then ['x'] else ['z'])
    [{ front := ['a'], back := ['x'], correctCount := 0, lastReview := 1 },
     { front := ['b'], back := ['y'], correctCount := 0, lastReview := 1 }]
    [{ front := ['b'], back := ['y'], correctCount := 0, lastReview := 1 },
     { front := ['a'], back := ['x'], correctCount := 0, lastReview := 1 }]
    (by decide) (by decide) (by decide) (fun _ => rfl) (fun _ => rfl)
    (by
      intro j d hj
      match j, hj with
      | 0, hj => simp at hj; subst hj; rfl
      | 1, hj => simp at hj; subst hj; rfl
      | j + 2, hj => simp at hj)
    (by
      intro j d hj
      match j, hj with
      | 0, hj => simp at hj; subst hj; rfl
      | 1, hj => simp at hj; subst hj; rfl
      | j + 2, hj => simp at hj)).1

/-! ## The count stays non-negative -/

theorem applyResult_counts (time : Nat → Int) (f : List Char) (correct : Bool)
    (cards : List Flashcard) (k : Nat) (B : Int) (hB : 0 ≤ B)
    (h : ∀ c ∈ cards, 0 ≤ c.correctCount ∧ c.correctCount + (B + 1) ≤ INT_MAX) :
    ∀ c ∈ (applyResult time f correct cards k).1,
      0 ≤ c.correctCount ∧ c.correctCount + B ≤ INT_MAX := by
  induction cards generalizing k with
  | nil => simp [applyResult]
  | cons a as ih =>
    have ha := h a (by simp)
    have has : ∀ c ∈ as, 0 ≤ c.correctCount ∧ c.correctCount + (B + 1) ≤ INT_MAX :=
      fun c hc => h c (by simp [hc])
    unfold applyResult
    by_cases hf : a.front = f
    · simp only [hf, if_true]
      intro c hc
      rcases List.mem_cons.1 hc with hc | hc
      · have hb := mark_count_bounds correct (time k) a ha.1 (by omega)
        rw [hc]
        omega
      · exact ih _ has c hc
    · simp only [hf, if_false]
      intro c hc
      rcases List.mem_cons.1 hc with hc | hc
      · rw [hc]
        omega
      · exact ih _ has c hc

theorem applyResults_counts (time : Nat → Int) (rs : List (List Char × Bool))
    (cards : List Flashcard) (k : Nat) (B : Int) (hB : 0 ≤ B)
    (h : ∀ c ∈ cards, 0 ≤ c.correctCount ∧ c.correctCount + (B + rs.length) ≤ INT_MAX) :
    ∀ c ∈ (applyResults time rs cards k).1,
      0 ≤ c.correctCount ∧ c.correctCount + B ≤ INT_MAX := by
  induction rs generalizing cards k with
  | nil => simpa [applyResults] using h
  | cons r rs ih =>
    unfold applyResults
    simp only
    apply ih
    apply applyResult_counts time r.1 r.2 cards k (B + rs.length) (by omega)
    intro c hc
    have := h c hc
    simp only [List.length_cons, Nat.cast_add, Nat.cast_one] at this
    omega

theorem sessionResults_length (cin : Nat → List Char) (l : List Flashcard) (n : Nat) :
    (sessionResults cin l n).length = l.length := by
  have h := congrArg List.length (sessionResults_fronts cin l n)
  simpa using h

theorem reviewCards_counts (env : Env) (st : State) (B : Int) (hB : 0 ≤ B)
    (h : ∀ c ∈ st.cards, 0 ≤ c.correctCount ∧ c.correctCount + (B + st.cards.length) ≤ INT_MAX) :
    (reviewCards env st).cards.length = st.cards.length ∧
      ∀ c ∈ (reviewCards env st).cards, 0 ≤ c.correctCount ∧ c.correctCount + B ≤ INT_MAX := by
  constructor
  · rw [reviewCards_eq_applyResults, applyResults_length]
  · rw [reviewCards_eq_applyResults]
    apply applyResults_counts _ _ _ _ B hB
    have hlen : (sessionResults env.cin
        (random_shuffle env.rand st.randCalls
          (selectDue (env.time st.timeCalls) st.cards [])).1 st.linesRead).length ≤
        st.cards.length := by
      have hp : (random_shuffle env.rand st.randCalls
          (selectDue (env.time st.timeCalls) st.cards [])).1.Perm
          (selectDue (env.time st.timeCalls) st.cards []) := shuffleLoop_perm env.rand _ _ _ _
      rw [sessionResults_length, hp.length_eq, selectDue_eq_filter]
      exact List.length_filter_le _ _
    intro c hc
    have := h c hc
    omega

theorem run_counts (env : Env) (ops : List Op) (st : State)
    (hcost : (opsCost st.cards.length ops : Int) ≤ INT_MAX)
    (h : ∀ c ∈ st.cards,
      0 ≤ c.correctCount ∧ c.correctCount + opsCost st.cards.length ops ≤ INT_MAX) :
    ∀ c ∈ (run env ops st).cards, 0 ≤ c.correctCount := by
  induction ops generalizing st with
  | nil => exact fun c hc => (h c hc).1
  | cons op ops ih =>
    have hrun : run env (op :: ops) st = run env ops (step env op st) := rfl
    rw [hrun]
    cases op with
    | add front back =>
      have hlen : (step env (Op.add front back) st).cards.length = st.cards.length + 1 := by
        simp [step, addCard]
      simp only [opsCost] at hcost h
      apply ih
      · rw [hlen]; exact hcost
      · rw [hlen]
        intro c hc
        simp only [step, addCard, List.mem_append, List.mem_singleton] at hc
        rcases hc with hc | hc
        · exact h c hc
        · rw [hc]
          exact ⟨le_refl 0, by simpa using hcost⟩
    | answer front correct =>
      have hlen : (step env (Op.answer front correct) st).cards.length = st.cards.length := by
        simp [step, applyResult_length]
      simp only [opsCost, Nat.cast_add, Nat.cast_one] at hcost h
      apply ih
      · rw [hlen]; omega
      · rw [hlen]
        apply applyResult_counts env.time front correct st.cards st.timeCalls _ (by omega)
        intro c hc
        have := h c hc
        omega
    | review =>
      simp only [opsCost, Nat.cast_add] at hcost h
      obtain ⟨hlen, hcounts⟩ := reviewCards_counts env st (opsCost st.cards.length ops)
        (by omega) (fun c hc => by have := h c hc; omega)
      apply ih
      · simp only [step]; rw [hlen]; omega
      · simp only [step]; rw [hlen]
        exact hcounts

/-- C13, the claim as stated fails: `loadCards` accepts the record
`a\nb\n-5 0\n`, so the constructed store holds a card with count `-5`; after a
correct answer for `a` the count is `-4`, still negative. -/
theorem count_nonneg_counterexample :
    (construct (some ['a', '\n', 'b', '\n', '-', '5', ' ', '0', '\n'])).map (fun s => s.cards) =
        some [{ front := ['a'], back := ['b'], correctCount := -5, lastReview := 0 }] ∧
      (construct (some ['a', '\n', 'b', '\n', '-', '5', ' ', '0', '\n'])).map
          (fun s => (run { time := fun _ => 9, rand := fun _ => 0, cin := fun _ => [] }
            [Op.answer ['a'] true] s).cards) =
        some [{ front := ['a'], back := ['b'], correctCount := -4, lastReview := 9 }] := by
  refine ⟨by decide, by decide⟩

/-- C13, amended. From a constructed store whose loaded cards all have
`correctCount >= 0` (an absent file, or a text whose records have
non-negative counts), after any sequence of `addCard` calls, answer
transitions and calls of `reviewCards` that cannot push a count beyond the
largest `int`, every card has `correctCount >= 0`. -/
theorem count_nonneg_preserved (env : Env) (file : Option (List Char)) (st0 : State)
    (ops : List Op) (hc : construct file = some st0)
    (h0 : ∀ c ∈ st0.cards, 0 ≤ c.correctCount)
    (hmax : ∀ c ∈ st0.cards, c.correctCount + opsCost st0.cards.length ops ≤ INT_MAX)
    (hcost : (opsCost st0.cards.length ops : Int) ≤ INT_MAX) :
    (file = none → st0.cards = []) ∧
      ∀ c ∈ (run env ops st0).cards, 0 ≤ c.correctCount := by
  constructor
  · intro hf
    rw [hf] at hc
    simp only [construct, loadCards, Option.map_some', Option.some.injEq] at hc
    rw [← hc]
  · exact run_counts env ops st0 hcost (fun c hcm => ⟨h0 c hcm, hmax c hcm⟩)

/-- Witness for C13 amended: a store loaded from one saved card, then an
added card, a wrong answer, a review session and a right answer. -/
theorem count_nonneg_preserved_witness :
    ((run { time := fun _ => 9, rand := fun _ => 0, cin := fun _ => ['x'] }
        [Op.add ['c'] ['z'], Op.answer ['a'] false, Op.review, Op.answer ['c'] true]
        { cards := [{ front := ['a'], back := ['b'], correctCount := 0, lastReview := 0 }],
          file := some ['a', '\n', 'b', '\n', '0', ' ', '0', '\n'], cout := [], timeCalls := 0,
          randCalls := 0, linesRead := 0 }).cards.all
      fun c => decide (0 ≤ c.correctCount)) = true :=
  List.all_eq_true.2 fun c hc => decide_eq_true
    ((count_nonneg_preserved { time := fun _ => 9, rand := fun _ => 0, cin := fun _ => ['x'] }
      (some ['a', '\n', 'b', '\n', '0', ' ', '0', '\n'])
      { cards := [{ front := ['a'], back := ['b'], correctCount := 0, lastReview := 0 }],
        file := some ['a', '\n', 'b', '\n', '0', ' ', '0', '\n'], cout := [], timeCalls := 0,
        randCalls := 0, linesRead := 0 }
      [Op.add ['c'] ['z'], Op.answer ['a'] false, Op.review, Op.answer ['c'] true]
      (by rfl) (by decide) (by decide) (by decide)).2 c hc)

/-! ## Records that run out of lines or hold no two integers -/

theorem load_after_saved (cs : List Flashcard) (hcs : ∀ c ∈ cs, WellFormed c) (tail : List Char)
    (h : ∀ (fuel : Nat) (front back : List Char) (cards : List Flashcard),
      loadLoop (fuel + 1) { buf := tail, eofbit := false, failbit := false } front back cards =
        some cards) :
    loadCards (some (saveCards cs ++ tail)) [] = some cs := by
  have hle := length_le_saveCards cs
  obtain ⟨f1, b1, hl⟩ := loadLoop_saveCards cs hcs
    ((saveCards cs ++ tail).length - cs.length + 1) tail [] [] []
  have hfuel : (saveCards cs ++ tail).length - cs.length + 1 + cs.length =
      (saveCards cs ++ tail).length + 1 := by
    simp only [List.length_append]
    omega
  rw [hfuel, List.nil_append] at hl
  simp only [loadCards, hl]
  exact h _ f1 b1 cs

theorem dropWhile_blanks (sp buf : List Char) (hsp : ∀ c ∈ sp, isspace c = true) :
    (sp ++ buf).dropWhile isspace = buf.dropWhile isspace := by
  induction sp with
  | nil => rfl
  | cons a as ih =>
    rw [List.cons_append, List.dropWhile_cons_of_pos (hsp a (by simp))]
    exact ih (fun c hc => hsp c (by simp [hc]))

theorem dropWhile_head (l : List Char) (c : Char) (cs : List Char)
    (h : l.dropWhile isspace = c :: cs) :
    isspace c = false ∧ ∀ rest, (l ++ rest).dropWhile isspace = c :: (cs ++ rest) := by
  induction l with
  | nil => simp at h
  | cons a as ih =>
    by_cases ha : isspace a = true
    · rw [List.dropWhile_cons_of_pos ha] at h
      obtain ⟨h1, h2⟩ := ih h
      refine ⟨h1, fun rest => ?_⟩
      rw [List.cons_append, List.dropWhile_cons_of_pos ha]
      exact h2 rest
    · rw [List.dropWhile_cons_of_neg ha] at h
      obtain ⟨hac, hcs⟩ := List.cons.inj h
      subst hac hcs
      refine ⟨by simpa using ha, fun rest => ?_⟩
      rw [List.cons_append, List.dropWhile_cons_of_neg ha]

theorem extractInt_blank (lo hi : Int) (buf : List Char) (h : ∀ c ∈ buf, isspace c = true) :
    (extractInt lo hi { buf := buf, eofbit := false, failbit := false }).1.ok = false := by
  have hd : buf.dropWhile isspace = [] := by
    have := dropWhile_blanks buf [] h
    simpa using this
  simp [extractInt, IStream.good, IStream.ok, hd]

theorem extractInt_skip (lo hi : Int) (sp buf : List Char) (hsp : ∀ c ∈ sp, isspace c = true) :
    extractInt lo hi { buf := sp ++ buf, eofbit := false, failbit := false } =
      extractInt lo hi { buf := buf, eofbit := false, failbit := false } := by
  simp only [extractInt, IStream.good, Bool.not_false, Bool.and_self, if_true,
    dropWhile_blanks sp buf hsp]

theorem accumDigits_nondigit (rest : List Char) (a : Nat)
    (hrest : ∀ c cs, rest = c :: cs → isdigit c = false) :
    accumDigits rest a = (a, rest) := by
  cases rest with
  | nil => rfl
  | cons c cs => exact accumDigits_stop c cs a (hrest c cs rfl)

theorem accumDigits_append_digits (ds rest : List Char) (a : Nat)
    (hds : ∀ c ∈ ds, isdigit c = true) (hrest : ∀ c cs, rest = c :: cs → isdigit c = false) :
    (accumDigits (ds ++ rest) a).2 = rest := by
  induction ds generalizing a with
  | nil => rw [List.nil_append, accumDigits_nondigit rest a hrest]
  | cons d ds ih =>
    rw [List.cons_append, accumDigits, if_pos (hds d (by simp))]
    exact ih _ (fun c hc => hds c (by simp [hc]))

theorem takeSign_append (c : Char) (cs rest : List Char) :
    takeSign (c :: (cs ++ rest)) = ((takeSign (c :: cs)).1, (takeSign (c :: cs)).2 ++ rest) := by
  simp only [takeSign]
  split_ifs <;> rfl

/-- Extraction of an integer fails on a line whose first token is not an
integer, whatever follows the line. -/
theorem extractInt_nonint (lo hi : Int) (l rest : List Char)
    (hl : startsNonInteger l = true) (hrest : ∀ c cs, rest = c :: cs → isdigit c = false) :
    (extractInt lo hi { buf := l ++ rest, eofbit := false, failbit := false }).1.ok = false := by
  unfold startsNonInteger at hl
  cases hd : l.dropWhile isspace with
  | nil => simp [hd] at hl
  | cons c cs =>
    rw [hd] at hl
    simp only at hl
    obtain ⟨_, happ⟩ := dropWhile_head l c cs hd
    have hts := takeSign_append c cs rest
    have hstop : accumDigits ((takeSign (c :: cs)).2 ++ rest) 0 =
        (0, (takeSign (c :: cs)).2 ++ rest) := by
      apply accumDigits_nondigit
      intro x xs hx
      cases h2 : (takeSign (c :: cs)).2 with
      | nil =>
        rw [h2, List.nil_append] at hx
        exact hrest x xs hx
      | cons d ds =>
        rw [h2] at hl hx
        simp only [List.cons_append, List.cons.injEq] at hx
        rw [← hx.1]
        simpa using hl
    simp only [extractInt, IStream.good, Bool.not_false, Bool.and_self, if_true, happ rest, hts,
      hstop, IStream.ok]
    simp

/-- Extraction of an integer from the text of an integer followed by something
that is not a digit consumes exactly that text. -/
theorem extractInt_literal (lo hi : Int) (lit rest : List Char)
    (hlit : isIntLiteral lit = true) (hrest : ∀ c cs, rest = c :: cs → isdigit c = false) :
    (extractInt lo hi { buf := lit ++ rest, eofbit := false, failbit := false }).1.buf = rest ∧
      (extractInt lo hi { buf := lit ++ rest, eofbit := false, failbit := false }).1.eofbit =
        rest.isEmpty := by
  unfold isIntLiteral at hlit
  cases lit with
  | nil => simp at hlit
  | cons c cs =>
    simp only at hlit
    cases h2 : (takeSign (c :: cs)).2 with
    | nil => simp [h2] at hlit
    | cons d ds =>
      rw [h2] at hlit
      have hds : ∀ x ∈ d :: ds, isdigit x = true := by
        simpa [List.all_eq_true] using hlit
      have hsp : isspace c = false := by
        by_cases hm : c = '-'
        · rw [hm]; decide
        · by_cases hp : c = '+'
          · rw [hp]; decide
          · have hcd : c :: cs = d :: ds := by
              simpa [takeSign, hm, hp] using h2
            have : isdigit c = true := by
              rw [(List.cons.inj hcd).1]
              exact hds d (by simp)
            exact (isdigit_facts c this).1
      have hts := takeSign_append c cs rest
      rw [h2] at hts
      have hacc := accumDigits_append_digits (d :: ds) rest 0 hds hrest
      have hlen : ((d :: ds) ++ rest).length ≠ rest.length := by
        simp; omega
      simp only [List.cons_append] at hts hacc hlen ⊢
      simp only [extractInt, IStream.good, Bool.not_false, Bool.and_self, if_true]
      rw [List.dropWhile_cons_of_neg (by simp [hsp])]
      simp only [hts, hacc, hlen, if_false]
      split_ifs <;> exact ⟨rfl, rfl⟩

theorem isspace_not_digit (c : Char) (h : isspace c = true) : isdigit c = false := by
  cases hd : isdigit c with
  | false => rfl
  | true =>
    rw [(isdigit_facts c hd).1] at h
    exact absurd h (by decide)

theorem startsNonInteger_head (l rest : List Char) (hl : startsNonInteger l = true) :
    ∀ c cs, l ++ rest = c :: cs → isdigit c = false := by
  intro c cs hc
  cases l with
  | nil => simp [startsNonInteger] at hl
  | cons a as =>
    simp only [List.cons_append, List.cons.injEq] at hc
    rw [← hc.1]
    by_cases ha : isspace a = true
    · exact isspace_not_digit a ha
    · unfold startsNonInteger at hl
      rw [List.dropWhile_cons_of_neg ha] at hl
      simp only [takeSign] at hl
      by_cases hm : a = '-'
      · rw [hm]; decide
      · by_cases hp : a = '+'
        · rw [hp]; decide
        · simpa [hm, hp] using hl

/-- The two extractions `file >> count >> last` fail on a third line with one
integer followed by a token that is not an integer, or by blanks only. -/
theorem extract_two_fails (sp lit rest : List Char) (hsp : ∀ c ∈ sp, isspace c = true)
    (hlit : isIntLiteral lit = true)
    (hrest : (∀ c ∈ rest, isspace c = true) ∨
      ∃ l more, rest = l ++ more ∧ startsNonInteger l = true ∧
        ∀ c cs, more = c :: cs → isdigit c = false) :
    (extractInt TIME_MIN TIME_MAX
      (extractInt INT_MIN INT_MAX
        { buf := sp ++ (lit ++ rest), eofbit := false, failbit := false }).1).1.ok = false := by
  have hhead : ∀ c cs, rest = c :: cs → isdigit c = false := by
    rcases hrest with h | ⟨l, more, hr, hl, _⟩
    · intro c cs hc
      exact isspace_not_digit c (h c (by simp [hc]))
    · rw [hr]
      exact startsNonInteger_head l more hl
  rw [extractInt_skip _ _ sp _ hsp]
  obtain ⟨hbuf, heof⟩ := extractInt_literal INT_MIN INT_MAX lit rest hlit hhead
  generalize extractInt INT_MIN INT_MAX
    { buf := lit ++ rest, eofbit := false, failbit := false } = e1 at hbuf heof
  obtain ⟨s1, v1⟩ := e1
  obtain ⟨b1, eof1, fail1⟩ := s1
  simp only at hbuf heof
  subst hbuf heof
  by_cases hgood : (IStream.mk b1 b1.isEmpty fail1).good = true
  · have hf : fail1 = false := by
      simp only [IStream.good, Bool.and_eq_true, Bool.not_eq_true'] at hgood
      exact hgood.2
    have he : b1.isEmpty = false := by
      simp only [IStream.good, Bool.and_eq_true, Bool.not_eq_true'] at hgood
      exact hgood.1
    rw [hf, he]
    rcases hrest with h | ⟨l, more, hr, hl, hmore⟩
    · exact extractInt_blank _ _ b1 h
    · rw [hr]
      exact extractInt_nonint _ _ l more hl hmore
  · exact (extractInt_not_good _ _ _ (by simpa using hgood)).1

theorem not_good_of_not_ok (s : IStream) (h : s.ok = false) : s.good = false := by
  simp only [IStream.ok, Bool.not_eq_false'] at h
  simp [IStream.good, h]

theorem loadLoop_third_fails (fuel : Nat) (f b t3 front back : List Char)
    (cards : List Flashcard) (hf : '\n' ∉ f) (hb : '\n' ∉ b)
    (h : (extractInt TIME_MIN TIME_MAX
      (extractInt INT_MIN INT_MAX { buf := t3, eofbit := false, failbit := false }).1).1.ok =
        false) :
    loadLoop (fuel + 1)
        { buf := f ++ '\n' :: (b ++ '\n' :: t3), eofbit := false, failbit := false }
        front back cards = some cards := by
  apply loadLoop_extract_fail
  rw [getline_line f _ front hf, getline_line b t3 back hb]
  exact h

theorem extract_two_fails_first (t3 : List Char)
    (h : (extractInt INT_MIN INT_MAX { buf := t3, eofbit := false, failbit := false }).1.ok =
      false) :
    (extractInt TIME_MIN TIME_MAX
      (extractInt INT_MIN INT_MAX { buf := t3, eofbit := false, failbit := false }).1).1.ok =
        false :=
  (extractInt_not_good _ _ _ (not_good_of_not_ok _ h)).1

theorem blank_head (ws : List Char) (hws : ∀ c ∈ ws, isspace c = true) :
    ∀ c cs, ws = c :: cs → isdigit c = false :=
  fun c _ hc => isspace_not_digit c (hws c (by simp [hc]))

/-! ## The third line and what follows it -/

theorem readInt_nil : readInt [] = none := rfl

theorem extractInt_readInt_none (lo hi : Int) (buf : List Char) (h : readInt buf = none) :
    (extractInt lo hi { buf := buf, eofbit := false, failbit := false }).1.ok = false := by
  unfold readInt at h
  unfold extractInt
  simp only [IStream.good, Bool.not_false, Bool.and_self, if_true]
  cases hd : buf.dropWhile isspace with
  | nil => simp [IStream.ok]
  | cons c cs =>
    rw [hd] at h
    simp only at h ⊢
    by_cases hlen : (takeSign (c :: cs)).2.length = (accumDigits (takeSign (c :: cs)).2 0).2.length
    · simp [hlen, IStream.ok]
    · simp [hlen] at h

theorem extractInt_readInt_some (lo hi : Int) (buf : List Char) (x : Int) (rest : List Char)
    (h : readInt buf = some (x, rest)) :
    extractInt lo hi { buf := buf, eofbit := false, failbit := false } =
      if lo ≤ x ∧ x ≤ hi then
        ({ buf := rest, eofbit := rest.isEmpty, failbit := false }, some x)
      else ({ buf := rest, eofbit := rest.isEmpty, failbit := true }, none) := by
  unfold readInt at h
  unfold extractInt
  simp only [IStream.good, Bool.not_false, Bool.and_self, if_true]
  cases hd : buf.dropWhile isspace with
  | nil => simp [hd] at h
  | cons c cs =>
    rw [hd] at h
    simp only at h ⊢
    by_cases hlen : (takeSign (c :: cs)).2.length = (accumDigits (takeSign (c :: cs)).2 0).2.length
    · simp [hlen] at h
    · simp only [hlen, if_false, Option.some.injEq, Prod.mk.injEq] at h ⊢
      obtain ⟨hx, hr⟩ := h
      rw [hx, hr]

theorem readInt_some_ne_nil (buf : List Char) (x : Int) (rest : List Char)
    (h : readInt buf = some (x, rest)) : buf ≠ [] := by
  intro hb
  rw [hb, readInt_nil] at h
  exact absurd h (by simp)

/-- The two extractions of the loop condition succeed exactly on a text that
begins with two integers. -/
theorem extract_two_ok (t3 : List Char) :
    (extractInt TIME_MIN TIME_MAX
      (extractInt INT_MIN INT_MAX { buf := t3, eofbit := false, failbit := false }).1).1.ok =
      beginsWithTwoInts t3 := by
  unfold beginsWithTwoInts
  cases h1 : readInt t3 with
  | none =>
    simp only
    exact extract_two_fails_first t3 (extractInt_readInt_none _ _ t3 h1)
  | some p =>
    obtain ⟨x, rest⟩ := p
    simp only
    rw [extractInt_readInt_some _ _ t3 x rest h1]
    by_cases hx : INT_MIN ≤ x ∧ x ≤ INT_MAX
    · simp only [hx, and_self, if_true, decide_True, Bool.true_and]
      cases rest with
      | nil =>
        rw [readInt_nil]
        exact (extractInt_not_good _ _ _ (by simp [IStream.good])).1
      | cons d ds =>
        simp only [List.isEmpty_cons]
        cases h2 : readInt (d :: ds) with
        | none => exact extractInt_readInt_none _ _ _ h2
        | some q =>
          obtain ⟨y, rest2⟩ := q
          simp only
          rw [extractInt_readInt_some _ _ _ y rest2 h2]
          by_cases hy : TIME_MIN ≤ y ∧ y ≤ TIME_MAX
          · simp [hy, IStream.ok]
          · simp [hy, IStream.ok]
    · simp only [hx, if_false, decide_False, Bool.false_and]
      exact (extractInt_not_good _ _ _ (by simp [IStream.good])).1

theorem loadLoop_third_reads (fuel : Nat) (f b t3 front back : List Char)
    (cards : List Flashcard) (hf : '\n' ∉ f) (hb : '\n' ∉ b) (x y : Int)
    (rest1 rest2 : List Char) (h1 : readInt t3 = some (x, rest1))
    (hx : INT_MIN ≤ x ∧ x ≤ INT_MAX) (h2 : readInt rest1 = some (y, rest2))
    (hy : TIME_MIN ≤ y ∧ y ≤ TIME_MAX) :
    loadLoop (fuel + 1)
        { buf := f ++ '\n' :: (b ++ '\n' :: t3), eofbit := false, failbit := false }
        front back cards =
      loadLoop fuel (ignore { buf := rest2, eofbit := rest2.isEmpty, failbit := false }) f b
        (cards ++ [{ front := f, back := b, correctCount := x, lastReview := y }]) := by
  have hne : rest1.isEmpty = false := by
    cases rest1 with
    | nil => exact absurd rfl (readInt_some_ne_nil _ _ _ h2)
    | cons d ds => rfl
  have e1 : extractInt INT_MIN INT_MAX { buf := t3, eofbit := false, failbit := false } =
      ({ buf := rest1, eofbit := false, failbit := false }, some x) := by
    rw [extractInt_readInt_some _ _ t3 x rest1 h1, if_pos hx, hne]
  have e2 : extractInt TIME_MIN TIME_MAX { buf := rest1, eofbit := false, failbit := false } =
      ({ buf := rest2, eofbit := rest2.isEmpty, failbit := false }, some y) := by
    rw [extractInt_readInt_some _ _ rest1 y rest2 h2, if_pos hy]
  rw [loadLoop]
  simp only [getline_line f _ front hf, getline_line b t3 back hb, e1, e2, IStream.ok,
    Bool.not_false, if_true]

theorem loadLoop_extends (fuel : Nat) (s : IStream) (front back : List Char)
    (cards r : List Flashcard) (h : loadLoop fuel s front back cards = some r) :
    cards <+: r := by
  induction fuel generalizing s front back cards with
  | zero => simp [loadLoop] at h
  | succ n ih =>
    unfold loadLoop at h
    simp only at h
    split at h
    · split at h
      · split at h
        · exact (List.prefix_append _ _).trans (ih _ _ _ _ h)
        · rw [Option.some.inj h]
      · rw [Option.some.inj h]
    · rw [Option.some.inj h]

/-- After the text of a well-formed Card Set, a record whose text from the
third line on does not begin with two integers ends the load with that Card
Set. -/
theorem load_third_discarded (cs : List Flashcard) (hcs : ∀ c ∈ cs, WellFormed c)
    (f b t3 : List Char) (hf : '\n' ∉ f) (hb : '\n' ∉ b) (h : beginsWithTwoInts t3 = false) :
    loadCards (some (saveCards cs ++ (f ++ '\n' :: (b ++ '\n' :: t3)))) [] = some cs := by
  apply load_after_saved cs hcs
  intro fuel front back cards
  exact loadLoop_third_fails fuel f b t3 front back cards hf hb ((extract_two_ok t3).trans h)

/-- After the text of a well-formed Card Set, a record whose text from the
third line on begins with two integers is loaded as one more card. -/
theorem load_third_loaded (cs : List Flashcard) (hcs : ∀ c ∈ cs, WellFormed c)
    (f b t3 : List Char) (hf : '\n' ∉ f) (hb : '\n' ∉ b) (h : beginsWithTwoInts t3 = true) :
    ∃ (x y : Int) (rest1 rest2 : List Char) (r : List Flashcard),
      readInt t3 = some (x, rest1) ∧ readInt rest1 = some (y, rest2) ∧
      loadCards (some (saveCards cs ++ (f ++ '\n' :: (b ++ '\n' :: t3)))) [] = some r ∧
      (cs ++ [{ front := f, back := b, correctCount := x, lastReview := y }]) <+: r := by
  unfold beginsWithTwoInts at h
  cases h1 : readInt t3 with
  | none => simp [h1] at h
  | some p =>
    obtain ⟨x, rest1⟩ := p
    rw [h1] at h
    simp only [Bool.and_eq_true, decide_eq_true_eq] at h
    obtain ⟨hx, h⟩ := h
    cases h2 : readInt rest1 with
    | none => simp [h2] at h
    | some q =>
      obtain ⟨y, rest2⟩ := q
      rw [h2] at h
      simp only [decide_eq_true_eq] at h
      obtain ⟨r, hr⟩ := loadCards_total
        (some (saveCards cs ++ (f ++ '\n' :: (b ++ '\n' :: t3)))) []
      refine ⟨x, y, rest1, rest2, r, rfl, h2, hr, ?_⟩
      have hle := length_le_saveCards cs
      obtain ⟨f1, b1, hl⟩ := loadLoop_saveCards cs hcs
        ((saveCards cs ++ (f ++ '\n' :: (b ++ '\n' :: t3))).length - cs.length + 1)
        (f ++ '\n' :: (b ++ '\n' :: t3)) [] [] []
      have hfuel : (saveCards cs ++ (f ++ '\n' :: (b ++ '\n' :: t3))).length - cs.length + 1 +
          cs.length = (saveCards cs ++ (f ++ '\n' :: (b ++ '\n' :: t3))).length + 1 := by
        simp only [List.length_append]
        omega
      rw [hfuel, List.nil_append] at hl
      simp only [loadCards, hl] at hr
      rw [loadLoop_third_reads _ f b t3 f1 b1 cs hf hb x y rest1 rest2 h1 hx h2 h] at hr
      exact loadLoop_extends _ _ _ _ _ _ hr

theorem beginsWithTwoInts_nonint (l rest : List Char) (hl : startsNonInteger l = true)
    (hrest : ∀ c cs, rest = c :: cs → isdigit c = false) :
    beginsWithTwoInts (l ++ rest) = false :=
  (extract_two_ok (l ++ rest)).symm.trans
    (extract_two_fails_first _ (extractInt_nonint _ _ l rest hl hrest))

/-- Third lines that begin with two integers although they do not look like
`count last`: `5-3` is read as `5` and `-3`, and `5 7x` as `5` and `7`; the
record is loaded, at the end of the file and in front of another record. -/
theorem third_line_two_ints_examples :
    beginsWithTwoInts ['5', '-', '3', '\n'] = true ∧
      beginsWithTwoInts ['5', ' ', '7', 'x', '\n'] = true ∧
      loadCards (some (['d', 'o', 'g', '\n', 'p', 'e', 'r', 'r', 'o', '\n',
        '5', ' ', '7', 'x', '\n'])) [] =
        some [{ front := ['d', 'o', 'g'], back := ['p', 'e', 'r', 'r', 'o'], correctCount := 5,
                lastReview := 7 }] ∧
      loadCards (some (['a', '\n', 'b', '\n', '5', '-', '3', '\n'] ++
        saveCards [{ front := ['c'], back := ['x'], correctCount := 0, lastReview := 0 }])) [] =
        some [{ front := ['a'], back := ['b'], correctCount := 5, lastReview := -3 },
              { front := ['c'], back := ['x'], correctCount := 0, lastReview := 0 }] ∧
      loadCards (some (['a', '\n', 'b', '\n', '5', ' ', '7', 'x', '\n'] ++
        saveCards [{ front := ['c'], back := ['x'], correctCount := 0, lastReview := 0 }])) [] =
        some [{ front := ['a'], back := ['b'], correctCount := 5, lastReview := 7 }] := by
  refine ⟨by decide, by decide, by decide, by decide, by decide⟩

/-- C11, amended. A record that runs out of lines is discarded: after the text
of a well-formed Card Set `cs`, `loadCards` returns exactly `cs` for a
trailing record that has only its front line (ended by a newline or not), or
only its front and back lines, or front and back lines followed by a text `t3`
that does not begin with two integers as `file >> count >> last` reads them
(whitespace skipped, one optional sign, at least one digit, the first value
within `int`, the second within `time_t`); this covers a third line that is
missing or blank, that holds one integer only, whose first token does not
start with an integer, or that holds an integer and then a token that does
not start with an integer. When `t3` does begin with two such integers `x`
and `y`, the card `(front, back, x, y)` is loaded after `cs`. -/
theorem incomplete_record_discarded (cs : List Flashcard) (hcs : ∀ c ∈ cs, WellFormed c)
    (f b sp lit ws tok t3 : List Char) (hf : '\n' ∉ f) (hb : '\n' ∉ b)
    (hsp : ∀ c ∈ sp, isspace c = true) (hlit : isIntLiteral lit = true)
    (hws : ∀ c ∈ ws, isspace c = true) (htok : startsNonInteger tok = true) :
    loadCards (some (saveCards cs ++ f)) [] = some cs ∧
      loadCards (some (saveCards cs ++ (f ++ ['\n']))) [] = some cs ∧
      loadCards (some (saveCards cs ++ (f ++ '\n' :: b))) [] = some cs ∧
      loadCards (some (saveCards cs ++ (f ++ '\n' :: (b ++ '\n' :: ws)))) [] = some cs ∧
      loadCards (some (saveCards cs ++ (f ++ '\n' :: (b ++ '\n' :: (sp ++ (lit ++ ws)))))) [] =
        some cs ∧
      loadCards (some (saveCards cs ++ (f ++ '\n' :: (b ++ '\n' :: (tok ++ ws))))) [] =
        some cs ∧
      loadCards (some (saveCards cs ++
        (f ++ '\n' :: (b ++ '\n' :: (sp ++ (lit ++ (tok ++ ws))))))) [] = some cs ∧
      (beginsWithTwoInts t3 = false →
        loadCards (some (saveCards cs ++ (f ++ '\n' :: (b ++ '\n' :: t3)))) [] = some cs) ∧
      (beginsWithTwoInts t3 = true →
        ∃ (x y : Int) (rest1 rest2 : List Char) (r : List Flashcard),
          readInt t3 = some (x, rest1) ∧ readInt rest1 = some (y, rest2) ∧
          loadCards (some (saveCards cs ++ (f ++ '\n' :: (b ++ '\n' :: t3)))) [] = some r ∧
          (cs ++ [{ front := f, back := b, correctCount := x, lastReview := y }]) <+: r) := by
  refine ⟨?_, ?_, ?_, ?_, ?_, ?_, ?_, load_third_discarded cs hcs f b t3 hf hb,
    load_third_loaded cs hcs f b t3 hf hb⟩ <;> apply load_after_saved cs hcs <;>
    intro fuel front back cards
  · exact loadLoop_second_getline_fail fuel _ front back cards
      (getline_not_good _ back (getline_prefix_of_line f f front hf List.prefix_rfl))
  · apply loadLoop_second_getline_fail
    rw [getline_line f [] front hf]
    simp [getline, IStream.good, IStream.ok]
  · apply loadLoop_extract_fail
    rw [getline_line f b front hf]
    have hg := getline_prefix_of_line b b back hb List.prefix_rfl
    exact (extractInt_not_good _ _ _ (extractInt_not_good _ _ _ hg).2).1
  · exact loadLoop_third_fails fuel f b ws front back cards hf hb
      (extract_two_fails_first ws (extractInt_blank _ _ ws hws))
  · exact loadLoop_third_fails fuel f b _ front back cards hf hb
      (extract_two_fails sp lit ws hsp hlit (Or.inl hws))
  · exact loadLoop_third_fails fuel f b _ front back cards hf hb
      (extract_two_fails_first _ (extractInt_nonint _ _ tok ws htok (blank_head ws hws)))
  · exact loadLoop_third_fails fuel f b _ front back cards hf hb
      (extract_two_fails sp lit _ hsp hlit (Or.inr ⟨tok, ws, rfl, htok, blank_head ws hws⟩))

/-- C11, the claim as stated fails: the third line `5-3` is one token (it
holds no whitespace) that is not an integer, yet the trailing record `dog`,
`perro`, `5-3` is not discarded: `>>` reads `5` and then `-3`, and the card
`("dog","perro",5,-3)` is loaded after the saved card. -/
theorem incomplete_record_counterexample :
    WellFormed { front := ['x'], back := [], correctCount := 3, lastReview := 9 } ∧
      (['5', '-', '3'].all fun c => !isspace c) = true ∧
      isIntLiteral ['5', '-', '3'] = false ∧
      loadCards (some (saveCards [{ front := ['x'], back := [], correctCount := 3, lastReview := 9 }] ++
        (['d', 'o', 'g'] ++ '\n' :: (['p', 'e', 'r', 'r', 'o'] ++ '\n' ::
          ['5', '-', '3', '\n'])))) [] =
        some [{ front := ['x'], back := [], correctCount := 3, lastReview := 9 },
              { front := ['d', 'o', 'g'], back := ['p', 'e', 'r', 'r', 'o'], correctCount := 5,
                lastReview := -3 }] := by
  refine ⟨by decide, by decide, by decide, by decide⟩

/-- Witness for C11 amended: after one saved card, the trailing record `dog`,
`perro` with the third line `12 x7`, which does not begin with two integers. -/
theorem incomplete_record_discarded_witness :
    loadCards (some (saveCards [{ front := ['x'], back := [], correctCount := 3, lastReview := 9 }] ++
        (['d', 'o', 'g'] ++ '\n' :: (['p', 'e', 'r', 'r', 'o'] ++ '\n' ::
          ['1', '2', ' ', 'x', '7', '\n'])))) [] =
      some [{ front := ['x'], back := [], correctCount := 3, lastReview := 9 }] :=
  (incomplete_record_discarded [{ front := ['x'], back := [], correctCount := 3, lastReview := 9 }]
    (by decide) ['d', 'o', 'g'] ['p', 'e', 'r', 'r', 'o'] [] ['1', '2'] ['\n'] ['a', 'b', 'c']
    ['1', '2', ' ', 'x', '7', '\n']
    (by decide) (by decide) (by decide) (by decide) (by decide) (by decide)).2.2.2.2.2.2.2.1
    (by decide)

/-- C17, the claim as stated fails: the record `a`, `b` with the third line
`5` does not begin with two integers, yet followed by the text of the card
`("7","x",0,0)` it is loaded as the card `("a","b",5,7)`, because the
extraction of `last` goes on into the next line. -/
theorem load_malformed_counterexample :
    WellFormed { front := ['7'], back := ['x'], correctCount := 0, lastReview := 0 } ∧
      beginsWithTwoInts ['5'] = false ∧
      loadCards (some (saveCards [] ++ (['a', '\n', 'b', '\n', '5', '\n'] ++
        saveCards [{ front := ['7'], back := ['x'], correctCount := 0, lastReview := 0 }]))) [] =
        some [{ front := ['a'], back := ['b'], correctCount := 5, lastReview := 7 }] := by
  refine ⟨by decide, by decide, by decide⟩

/-- C17, amended. For every well-formed Card Set `cs1`, every Card Set `cs2`
and every record with a front line, a back line and a third line `l3`:
`loadCards` on the text of `cs1`, the record and the text of `cs2` returns
exactly `cs1` when the text that starts with the third line and goes on
through the text of `cs2` does not begin with two integers as
`file >> count >> last` reads them (whitespace and line ends skipped, one
optional sign, at least one digit, the first value within `int`, the second
within `time_t`), and only then: when that text does begin with two such
integers `x` and `y`, the card `(front, back, x, y)` is loaded after `cs1`.
The first case holds in particular whenever the first token of the third
line does not start with an integer. -/
theorem load_stops_at_malformed (cs1 cs2 : List Flashcard) (hcs1 : ∀ c ∈ cs1, WellFormed c)
    (f b l3 : List Char) (hf : '\n' ∉ f) (hb : '\n' ∉ b) :
    (beginsWithTwoInts (l3 ++ '\n' :: saveCards cs2) = false →
        loadCards (some (saveCards cs1 ++
          (f ++ '\n' :: (b ++ '\n' :: (l3 ++ '\n' :: saveCards cs2))))) [] = some cs1) ∧
      (beginsWithTwoInts (l3 ++ '\n' :: saveCards cs2) = true →
        ∃ (x y : Int) (rest1 rest2 : List Char) (r : List Flashcard),
          readInt (l3 ++ '\n' :: saveCards cs2) = some (x, rest1) ∧
          readInt rest1 = some (y, rest2) ∧
          loadCards (some (saveCards cs1 ++
            (f ++ '\n' :: (b ++ '\n' :: (l3 ++ '\n' :: saveCards cs2))))) [] = some r ∧
          (cs1 ++ [{ front := f, back := b, correctCount := x, lastReview := y }]) <+: r ∧
          r ≠ cs1) ∧
      (startsNonInteger l3 = true →
        loadCards (some (saveCards cs1 ++
          (f ++ '\n' :: (b ++ '\n' :: (l3 ++ '\n' :: saveCards cs2))))) [] = some cs1) := by
  refine ⟨load_third_discarded cs1 hcs1 f b _ hf hb, ?_, ?_⟩
  · intro h
    obtain ⟨x, y, rest1, rest2, r, h1, h2, hr, hp⟩ := load_third_loaded cs1 hcs1 f b _ hf hb h
    refine ⟨x, y, rest1, rest2, r, h1, h2, hr, hp, ?_⟩
    intro hrc
    have hlen := hp.length_le
    rw [hrc] at hlen
    simp at hlen
  · intro h
    apply load_third_discarded cs1 hcs1 f b _ hf hb
    apply beginsWithTwoInts_nonint l3 _ h
    intro c cs hc
    rw [← (List.cons.inj hc).1]
    decide

/-- Witness for C17 amended: the third line `5 x` between two saved cards. -/
theorem load_stops_at_malformed_witness :
    loadCards (some (saveCards [{ front := ['x'], back := [], correctCount := 3, lastReview := 9 }] ++
        (['a'] ++ '\n' :: (['b'] ++ '\n' :: (['5', ' ', 'x'] ++ '\n' ::
          saveCards [{ front := ['7'], back := ['x'], correctCount := 0, lastReview := 0 }]))))) [] =
      some [{ front := ['x'], back := [], correctCount := 3, lastReview := 9 }] :=
  (load_stops_at_malformed [{ front := ['x'], back := [], correctCount := 3, lastReview := 9 }]
    [{ front := ['7'], back := ['x'], correctCount := 0, lastReview := 0 }] (by decide)
    ['a'] ['b'] ['5', ' ', 'x'] (by decide) (by decide)).1 (by decide)

end LinguaCards
